import Mathlib

/-!
Verification development for the PoS blockchain testbed
(`pos-blockchain`: `wallet_manager.py`, `block.py`, `transaction.py`,
`blockchain.py`, `node.py`, `attack_detect.py`).

Modelling conventions:
* Python floats (amounts, timestamps, similarity scores) are modelled as
  rationals; all branch conditions of the source are order comparisons, so
  the control flow is preserved.
* Hex SHA-256 digest strings are modelled by the inductive `HashV`, a
  collision-free record of the hashed data (the program only compares
  digests for equality and uses them as dictionary keys).
* Python dictionaries are insertion-ordered association lists.
* A Python exception escaping an operation is modelled by an explicit
  result flag (`Option`/result inductives); the returned state is the
  state the object is left in when the exception propagates.
-/

set_option linter.unusedVariables false

namespace PosMas

/-- Transaction types from `message_pb2.Transaction`. -/
inductive TxType
  | TRANSFER
  | STAKE
  | UNSTAKE
deriving DecidableEq, Repr

/-- A transaction (`transaction.py`). -/
structure Tx where
  sender : String
  receiver : String
  amount : ℚ
  timestamp : ℚ
  type : TxType
deriving DecidableEq, Repr

/-- The per-transaction content entering a block hash: the canonical string
`sender->receiver:amount@timestamp` of `Block.compute_hash` (the transaction
type is not part of it). -/
structure TxH where
  sender : String
  receiver : String
  amount : ℚ
  timestamp : ℚ
deriving DecidableEq, Repr

/-- Model of hex SHA-256 digest strings: a collision-free constructor
application carrying exactly the hashed data; the genesis parent digest,
the string of 64 zeros, is a separate constructor. -/
inductive HashV
  | zeros64
  | sha256 (index : Nat) (prev_hash : HashV) (timestamp : ℚ) (validator : String)
      (txs : List TxH)
deriving DecidableEq, Repr

/-- A block (`block.py`).  The `hash` field stores whatever digest the block
was created or received with; `from_proto` trusts it, so it can differ from
the recomputed digest. -/
structure Block where
  index : Nat
  prev_hash : HashV
  timestamp : ℚ
  validator : String
  transactions : List Tx
  hash : HashV
deriving DecidableEq, Repr

/-- `Block.compute_hash`: digest of index, previous hash, timestamp,
validator and the transaction canonical strings. -/
def compute_hash (b : Block) : HashV :=
  HashV.sha256 b.index b.prev_hash b.timestamp b.validator
    (b.transactions.map fun t => ⟨t.sender, t.receiver, t.amount, t.timestamp⟩)

/-- `Block.__init__`: the hash is computed from the other fields at
construction time. -/
def mk_block (index : Nat) (prev_hash : HashV) (transactions : List Tx)
    (validator : String) (timestamp : ℚ) : Block :=
  let b0 : Block := ⟨index, prev_hash, timestamp, validator, transactions, HashV.zeros64⟩
  { b0 with hash := compute_hash b0 }

/-- The fixed genesis block of `block.py`. -/
def genesis_block : Block := mk_block 0 HashV.zeros64 [] "genesis" 0

/-- `Transaction.tx_id`: SHA-256 of `sender->receiver:amount@timestamp`,
modelled as the hashed data itself. -/
structure TxId where
  sender : String
  receiver : String
  amount : ℚ
  timestamp : ℚ
deriving DecidableEq, Repr

def tx_id (t : Tx) : TxId := ⟨t.sender, t.receiver, t.amount, t.timestamp⟩

/-! ### Wallet state (`wallet_manager.py`) -/

structure Account where
  balance : ℚ
  stake : ℚ
deriving DecidableEq, Repr

/-- The `WalletManager.accounts` table: an insertion-ordered dictionary
from account identifier to balance and stake. -/
abbrev Wallet := List (String × Account)

/-- `_ensure_account`: create the account with zero balance and stake when
missing. -/
def ensure_account (w : Wallet) (a : String) : Wallet :=
  if w.any fun p => decide (p.1 = a) then w else w ++ [(a, ⟨0, 0⟩)]

def get_acct (w : Wallet) (a : String) : Account :=
  ((w.find? fun p => decide (p.1 = a)).map Prod.snd).getD ⟨0, 0⟩

def set_acct (w : Wallet) (a : String) (acc : Account) : Wallet :=
  w.map fun p => if p.1 = a then (a, acc) else p

/-- `deposit`: balance increases by the given amount, unconditionally. -/
def deposit (w : Wallet) (a : String) (x : ℚ) : Wallet :=
  let w1 := ensure_account w a
  set_acct w1 a ⟨(get_acct w1 a).balance + x, (get_acct w1 a).stake⟩

/-- `withdraw`: fails when the amount exceeds the balance. -/
def withdraw (w : Wallet) (a : String) (x : ℚ) : Bool × Wallet :=
  let w1 := ensure_account w a
  if x > (get_acct w1 a).balance then (false, w1)
  else (true, set_acct w1 a ⟨(get_acct w1 a).balance - x, (get_acct w1 a).stake⟩)

/-- `stake_tokens`: move the amount from balance to stake, failing when the
amount exceeds the balance. -/
def stake_tokens (w : Wallet) (a : String) (x : ℚ) : Bool × Wallet :=
  let w1 := ensure_account w a
  if x > (get_acct w1 a).balance then (false, w1)
  else (true, set_acct w1 a ⟨(get_acct w1 a).balance - x, (get_acct w1 a).stake + x⟩)

/-- `unstake_tokens`: move the amount from stake back to balance, failing
when the amount exceeds the stake. -/
def unstake_tokens (w : Wallet) (a : String) (x : ℚ) : Bool × Wallet :=
  let w1 := ensure_account w a
  if x > (get_acct w1 a).stake then (false, w1)
  else (true, set_acct w1 a ⟨(get_acct w1 a).balance + x, (get_acct w1 a).stake - x⟩)

/-- `get_balance`.  The source also implicitly creates a zero account on a
read, which never changes any observable balance or stake; the implicit
creation is modelled by the explicit read step of the history relations. -/
def get_balance (w : Wallet) (a : String) : ℚ := (get_acct w a).balance

/-- `get_stake`, with the same remark as `get_balance`. -/
def get_stake (w : Wallet) (a : String) : ℚ := (get_acct w a).stake

/-- `set_state`: rebuild the account table from a state mapping. -/
def set_state (st : Wallet) : Wallet := st.map fun p => (p.1, ⟨p.2.balance, p.2.stake⟩)

/-- Every account reads a non-negative balance and a non-negative stake. -/
def wallet_nonneg (w : Wallet) : Prop :=
  ∀ a, 0 ≤ get_balance w a ∧ 0 ≤ get_stake w a

/-- Observational equality of wallets: every account reads the same balance
and stake (absent accounts read as zero). -/
def wallet_equiv (w1 w2 : Wallet) : Prop := ∀ a, get_acct w1 a = get_acct w2 a

/-! ### Association maps with insertion-order semantics (Python dict) -/

def assoc_find {κ β : Type} [DecidableEq κ] (m : List (κ × β)) (k : κ) : Option β :=
  (m.find? fun p => decide (p.1 = k)).map Prod.snd

/-- Python dictionary assignment: update in place when the key exists,
append otherwise. -/
def map_insert {κ β : Type} [DecidableEq κ] (m : List (κ × β)) (k : κ) (v : β) :
    List (κ × β) :=
  if m.any fun p => decide (p.1 = k) then m.map fun p => if p.1 = k then (k, v) else p
  else m ++ [(k, v)]

/-! ### Block application (`Blockchain._apply_block_to_wallet`) -/

/-- The per-transaction admissibility checks at the top of the loop body of
`_apply_block_to_wallet`; they run in both modes. -/
def tx_check_ok (w : Wallet) (t : Tx) : Bool :=
  if t.amount ≤ 0 then false
  else if (t.type = TxType.TRANSFER ∨ t.type = TxType.STAKE) ∧
      get_balance w t.sender < t.amount then false
  else if t.type = TxType.UNSTAKE ∧ get_stake w t.sender < t.amount then false
  else true

/-- The transaction loop of `_apply_block_to_wallet`: check each transaction
and, unless `validate_only`, apply it; return `false` at the first failure,
keeping the effects applied so far. -/
def apply_txs (validate_only : Bool) : Wallet → List Tx → Bool × Wallet
  | w, [] => (true, w)
  | w, t :: rest =>
    if tx_check_ok w t = false then (false, w)
    else if validate_only then apply_txs validate_only w rest
    else
      match t.type with
      | TxType.TRANSFER =>
          let w1 := (withdraw w t.sender t.amount).2
          let w2 := deposit w1 t.receiver t.amount
          apply_txs validate_only w2 rest
      | TxType.STAKE =>
          match stake_tokens w t.sender t.amount with
          | (true, w1) => apply_txs validate_only w1 rest
          | (false, w1) => (false, w1)
      | TxType.UNSTAKE =>
          match unstake_tokens w t.sender t.amount with
          | (true, w1) => apply_txs validate_only w1 rest
          | (false, w1) => (false, w1)

def apply_block_to_wallet (w : Wallet) (b : Block) (validate_only : Bool) :
    Bool × Wallet :=
  apply_txs validate_only w b.transactions

/-- The block replay of `_apply_reorg` and `load_from_files`: apply each
block in applying mode, raising (= `none`) at the first failing block. -/
def replay_strict : Wallet → List Block → Option Wallet
  | w, [] => some w
  | w, b :: rest =>
    match apply_block_to_wallet w b false with
    | (true, w1) => replay_strict w1 rest
    | (false, _) => none

/-- Cumulative block application ignoring per-block failure flags: exactly
the wallet evolution of repeated `_apply_block_to_wallet` calls in applying
mode (the main-chain append path ignores the returned flag). -/
def replay_wallet (w0 : Wallet) (l : List Block) : Wallet :=
  l.foldl (fun w b => (apply_block_to_wallet w b false).2) w0

/-! ### Chain store (`blockchain.py`) -/

structure ChainState where
  blocks_by_hash : List (HashV × Block)
  chain : List Block
  wallet : Wallet
  genesis_state : Wallet
  reorg_removed : Option (List Block)
deriving DecidableEq, Repr

/-- `Blockchain.__init__` with the configured initial state. -/
def init_chain_state (initial : Wallet) : ChainState :=
  { blocks_by_hash := [(genesis_block.hash, genesis_block)]
    chain := [genesis_block]
    wallet := set_state initial
    genesis_state := initial
    reorg_removed := none }

/-- `Blockchain.head` (the source yields `None` on an empty chain; the
default is only reached in states where the source would raise). -/
def head_block (s : ChainState) : Block := s.chain.getLastD genesis_block

/-- The parent-path walk inside `validate_block`: from the parent block down
to the first block of index 0, following stored parent links with a direct
dictionary access.  `none` models the source raising `KeyError` on a missing
parent or looping forever on a parent cycle; the fuel passed by the caller
exceeds the number of stored blocks, so a terminating source walk always
fits. -/
def branch_blocks (m : List (HashV × Block)) : Nat → Block → Option (List Block)
  | 0, cur => if cur.index = 0 then some [] else none
  | fuel + 1, cur =>
    if cur.index = 0 then some []
    else
      match assoc_find m cur.prev_hash with
      | none => none
      | some q => (branch_blocks m fuel q).map fun l => cur :: l

/-- `Blockchain.validate_block`.  `none` models an exception escaping the
call (index error on an empty chain, or a failing parent walk); in every
such case the source raises without having mutated anything. -/
def validate_block (s : ChainState) (b : Block) : Option Bool :=
  if b.index = 0 then
    match s.chain.head? with
    | none => none
    | some c0 => some (decide (b.hash = c0.hash))
  else
    match assoc_find s.blocks_by_hash b.prev_hash with
    | none => some false
    | some parent =>
      if b.index ≠ parent.index + 1 then some false
      else if compute_hash b ≠ b.hash then some false
      else
        match s.chain.getLast? with
        | none => none
        | some hd =>
          if parent.hash = hd.hash then
            some ((apply_block_to_wallet s.wallet b true).1)
          else
            match branch_blocks s.blocks_by_hash
                (parent.index + s.blocks_by_hash.length + 2) parent with
            | none => none
            | some branch =>
              let gw := set_state s.genesis_state
              some ((branch.reverse.all fun pb => (apply_block_to_wallet gw pb true).1) &&
                (apply_block_to_wallet gw b true).1)

/-- Rebuilding `blocks_by_hash` from a chain (the dict comprehension of
`_apply_reorg`, and the incremental build of `load_from_files`). -/
def rebuild_index (l : List Block) : List (HashV × Block) :=
  l.foldl (fun m b => map_insert m b.hash b) []

/-- `Blockchain._apply_reorg`.  On a failing replay the source raises before
assigning anything, so the state at the call is returned unchanged together
with `false`. -/
def apply_reorg (s : ChainState) (new_chain : List Block) (ca : Block) :
    ChainState × Bool :=
  let removed := s.chain.drop (ca.index + 1)
  match replay_strict (set_state s.genesis_state) new_chain.tail with
  | none => (s, false)
  | some w =>
    ({ s with chain := new_chain
              blocks_by_hash := rebuild_index new_chain
              wallet := w
              reorg_removed := some removed }, true)

inductive AddResult
  | ok
  | invalid
  | reorg_failed
deriving DecidableEq, Repr

/-- The fork walk of `_reorganize_chain`: collect blocks from the new head
down until a block on the main chain (or a missing parent) is reached.
`none` models the source looping forever; the generous fuel exceeds the
number of stored blocks, so a terminating source walk always fits. -/
def collect_branch (m : List (HashV × Block)) (mainH : List HashV) :
    Nat → Option Block → Option (List Block × Option Block)
  | _, none => some ([], none)
  | 0, some _ => none
  | fuel + 1, some cur =>
    if cur.hash ∈ mainH then some ([], some cur)
    else (collect_branch m mainH fuel (assoc_find m cur.prev_hash)).map fun p =>
      (cur :: p.1, p.2)

/-- `Blockchain._reorganize_chain`. -/
def reorganize_chain (s : ChainState) (new_head : Block) : ChainState × AddResult :=
  let mainH := s.chain.map fun b => b.hash
  match collect_branch s.blocks_by_hash mainH
      (new_head.index + s.blocks_by_hash.length + 2) (some new_head) with
  | none => (s, .invalid)
  | some (branch, stop) =>
    let ca :=
      match stop with
      | some c => c
      | none => s.chain.getD 0 genesis_block
    let nc := s.chain.take (ca.index + 1) ++ branch.reverse
    match apply_reorg s nc ca with
    | (s1, true) => (s1, .ok)
    | (s1, false) => (s1, .reorg_failed)

/-- `Blockchain.add_block`.  The result flag records how the call ended:
`invalid` for a validation failure or an exception inside validation (the
source raises with the state unchanged), `reorg_failed` for a raising
reorganization (the rejected block is already stored at that point). -/
def add_block (s : ChainState) (b : Block) : ChainState × AddResult :=
  match validate_block s b with
  | none => (s, .invalid)
  | some false => (s, .invalid)
  | some true =>
    let s1 := { s with blocks_by_hash := map_insert s.blocks_by_hash b.hash b }
    if b.prev_hash = (head_block s1).hash then
      ({ s1 with wallet := (apply_block_to_wallet s1.wallet b false).2
                 chain := s1.chain ++ [b] }, .ok)
    else if b.index > (head_block s1).index then
      reorganize_chain s1 b
    else (s1, .ok)

inductive ReorgResult
  | done
  | empty_input
  | no_ancestor
  | failed
deriving DecidableEq, Repr

/-- Common-ancestor search of `reorganize_to_chain`: the first block of the
reversed main chain whose hash occurs in the candidate chain. -/
def find_common_ancestor (chain new_chain : List Block) : Option Block :=
  chain.reverse.find? fun blk => new_chain.any fun b => decide (b.hash = blk.hash)

/-- `Blockchain.reorganize_to_chain`. -/
def reorganize_to_chain (s : ChainState) (nc : List Block) : ChainState × ReorgResult :=
  if nc = [] then (s, .empty_input)
  else
    match find_common_ancestor s.chain nc with
    | none => (s, .no_ancestor)
    | some ca =>
      match apply_reorg s nc ca with
      | (s1, true) => (s1, .done)
      | (s1, false) => (s1, .failed)

/-- The possible outcomes of reading `blocks.json`: file missing, file
present but unparseable, or a parsed block list. -/
inductive LoadInput
  | missing
  | corrupt
  | parsed (blocks : List Block)
deriving DecidableEq, Repr

inductive LoadResult
  | returned_false
  | returned_true
  | raised
deriving DecidableEq, Repr

/-- `Blockchain.load_from_files`.  Only a missing file is caught (returning
`False`); an unparseable file or a failing replay raises out of the call
with the state unchanged. -/
def load_from_files (s : ChainState) (inp : LoadInput) : ChainState × LoadResult :=
  match inp with
  | .missing => (s, .returned_false)
  | .corrupt => (s, .raised)
  | .parsed blocks =>
    match replay_strict (set_state s.genesis_state) blocks.tail with
    | none => (s, .raised)
    | some w =>
      ({ s with chain := blocks
                blocks_by_hash := rebuild_index blocks
                wallet := w }, .returned_true)

/-- The chain-loading part of `Node.__init__`: when the snapshot file
exists, load it; fall back to a fresh chain only when `load_from_files`
returns `False`.  An exception raised by `load_from_files` propagates out of
the constructor and aborts startup, modelled by `Except.error`. -/
def node_startup_chain (file_exists : Bool) (inp : LoadInput) (initial : Wallet) :
    Except Unit ChainState :=
  if file_exists then
    match load_from_files (init_chain_state initial) inp with
    | (s1, .returned_true) => .ok s1
    | (_, .returned_false) => .ok (init_chain_state initial)
    | (_, .raised) => .error ()
  else .ok (init_chain_state initial)

/-! ### Node-level pieces (`node.py`) -/

/-- The confirmed-transaction identities of `Node._on_reorg`: all identities
occurring anywhere in the (new) main chain. -/
def confirmed_tx_ids (chain : List Block) : List TxId :=
  chain.flatMap fun blk => blk.transactions.map tx_id

/-- `Node._on_reorg`: append, to the mempool, every transaction of a removed
block whose identity does not occur in the new main chain. -/
def on_reorg (chain removed : List Block) (mempool : List Tx) : List Tx :=
  mempool ++ removed.flatMap fun blk =>
    blk.transactions.filter fun t => decide (tx_id t ∉ confirmed_tx_ids chain)

structure SyncResponse where
  sender_id : String
  blocks : List Block
deriving DecidableEq, Repr

/-- One step of the best-chain fold of `Node._select_longest_chain`: keep
the response's blocks when strictly longer than the best length so far. -/
def sync_step (acc : Option (List Block) × ℤ) (r : SyncResponse) :
    Option (List Block) × ℤ :=
  if (r.blocks.length : ℤ) > acc.2 then (some r.blocks, (r.blocks.length : ℤ))
  else acc

/-- `Node._select_longest_chain`: the first response of maximal block count
(strict improvement over a running best initialised to length -1). -/
def select_longest_chain (responses : List SyncResponse) : Option (List Block) :=
  (responses.foldl sync_step ((none : Option (List Block)), (-1 : ℤ))).1

/-- `Node._process_sync_responses` after clearing the in-progress flag: no
responses means no action; an identical hash sequence means no action;
otherwise the chain store is reorganized to the selected chain.  The boolean
records whether `reorganize_to_chain` was invoked. -/
def process_sync_responses (s : ChainState) (responses : List SyncResponse) :
    ChainState × Bool :=
  if responses = [] then (s, false)
  else
    match select_longest_chain responses with
    | none => (s, false)
    | some best =>
      if s.chain.map (fun b => b.hash) = best.map (fun b => b.hash) then (s, false)
      else ((reorganize_to_chain s best).1, true)

/-! ### Validator election (`Blockchain.select_validator`) -/

/-- Stand-in for the big-endian integer of SHA-256 over the head digest: any
fixed deterministic function of the digest serves the model, since the
program only feeds the value to the seeded generator. -/
def hash_seed : HashV → Nat
  | HashV.zeros64 => 0
  | HashV.sha256 i p t v txs =>
      Nat.pair i (Nat.pair (hash_seed p) (t.den + v.length + txs.length))

/-- Stand-in for `random.seed(n)` followed by `random.random()`: a fixed
deterministic rational in the half-open unit interval. -/
def seeded_unit (seed : Nat) : ℚ := ((seed % 997 : Nat) : ℚ) / 997

def cum_weights (ws : List ℚ) : List ℚ := (ws.scanl (fun a b => a + b) 0).tail

/-- `random.choices` with a single draw: cumulative weights, then the
`bisect_right` insertion point of `u * total`, clamped to the last index
exactly as the source passes `hi = len(population) - 1`. -/
def weighted_choice (cands : List String) (ws : List ℚ) (u : ℚ) : Option String :=
  let cums := cum_weights ws
  let total := cums.getLastD 0
  let x := u * total
  let idx := min (cums.countP fun c => decide (c ≤ x)) (cands.length - 1)
  cands.get? idx

/-- `Blockchain.select_validator` on an account table, head digest and known
validator collection: stake-weighted draw among known validators with
positive stake, falling back to balance weights, else no validator. -/
def select_validator (accounts : Wallet) (head_hash : HashV)
    (known_validators : List String) : Option String :=
  let pass1 := accounts.filter fun p =>
    decide (p.1 ∈ known_validators) && decide (0 < p.2.stake)
  if pass1 = [] then
    let pass2 := accounts.filter fun p =>
      decide (p.1 ∈ known_validators) && decide (0 < p.2.balance)
    if pass2 = [] then none
    else weighted_choice (pass2.map fun p => p.1) (pass2.map fun p => p.2.balance)
      (seeded_unit (hash_seed head_hash))
  else weighted_choice (pass1.map fun p => p.1) (pass1.map fun p => p.2.stake)
    (seeded_unit (hash_seed head_hash))

/-- The chain-store entry point: accounts from `get_wallet_info`, seed from
the head digest. -/
def select_validator_s (s : ChainState) (known_validators : List String) :
    Option String :=
  select_validator s.wallet (head_block s).hash known_validators

/-! ### Double-spend detector (`attack_detect.py`) -/

/-- A transaction record as seen by the detector. -/
structure DTx where
  from_address : String
  to_address : String
  amount : ℚ
  txid : String
deriving DecidableEq, Repr

/-- `DoubleSpendingDetector._calculate_similarity_simple`. -/
def calculate_similarity_simple (tx1 tx2 : DTx) : ℚ :=
  if tx1.from_address = tx1.to_address then 0
  else if tx2.from_address = tx2.to_address then 0
  else if ¬(tx1.from_address = tx2.from_address ∧ tx1.from_address ≠ "") then 0
  else
    let s1 : ℚ := 1 / 2
    let s2 : ℚ :=
      if tx1.to_address ≠ tx2.to_address ∧ tx1.to_address ≠ "" ∧ tx2.to_address ≠ "" then
        s1 + 1 / 5
      else if tx1.to_address = tx2.to_address then s1 + 1 / 10
      else s1
    let s3 : ℚ :=
      if 0 < tx1.amount ∧ 0 < tx2.amount then
        if tx1.amount = tx2.amount then s2 + 3 / 10
        else
          let d := |tx1.amount - tx2.amount| / max tx1.amount tx2.amount
          if d ≤ 1 / 10 then s2 + 3 / 10 * (1 - d / (1 / 10)) else s2
      else s2
    min s3 1

/-- The severity expression of the emitted pattern record:
`HIGH if s > 0.8 else (MEDIUM if s > 0.6 else LOW)`. -/
def severity_of (sim : ℚ) : String :=
  if sim > 4 / 5 then "HIGH" else if sim > 3 / 5 then "MEDIUM" else "LOW"

/-- The fields of an emitted pattern record relevant to the claims
(identifier, description and wall-clock fields are omitted). -/
structure DPattern where
  pattern_type : String
  confidence : ℚ
  severity : String
  tx1_id : String
  tx2_id : String
deriving DecidableEq, Repr

/-- `tuple(sorted([new_id, tx_id]))`. -/
def pair_key (a b : String) : String × String := if a ≤ b then (a, b) else (b, a)

/-- `DoubleSpendingDetector._detect_double_spending_against_history`:
scan the historical candidates in order, skip already-reported pairs, and
emit one pattern for the first candidate whose similarity reaches the
threshold (the loop breaks after the first match). -/
def detect_double_spending_against_history (threshold : ℚ)
    (detected_pairs : List (String × String)) (new_tx : DTx) :
    List DTx → List DPattern
  | [] => []
  | h :: rest =>
    if pair_key new_tx.txid h.txid ∈ detected_pairs then
      detect_double_spending_against_history threshold detected_pairs new_tx rest
    else
      let sim := calculate_similarity_simple new_tx h
      if sim ≥ threshold then
        [⟨"POTENTIAL_DOUBLE_SPENDING", sim, severity_of sim, new_tx.txid, h.txid⟩]
      else detect_double_spending_against_history threshold detected_pairs new_tx rest

/-! ### Histories of the chain store -/

/-- All chain-store histories: any sequence of store operations with
arbitrary inputs, including the implicit zero-account creation performed by
the `balance` and `stake` reads. -/
inductive Reach (gs : Wallet) : ChainState → Prop
  | init : Reach gs (init_chain_state gs)
  | add (s : ChainState) (b : Block) : Reach gs s → Reach gs (add_block s b).1
  | reorg (s : ChainState) (nc : List Block) :
      Reach gs s → Reach gs (reorganize_to_chain s nc).1
  | load (s : ChainState) (inp : LoadInput) :
      Reach gs s → Reach gs (load_from_files s inp).1
  | read (s : ChainState) (a : String) :
      Reach gs s → Reach gs { s with wallet := ensure_account s.wallet a }

/-- Links of a well-formed chain above some previous block: consecutive
hash links, consecutive indices, and honest stored hashes. -/
def linked_from (prev : Block) : List Block → Prop
  | [] => True
  | b :: rest =>
      b.prev_hash = prev.hash ∧ b.index = prev.index + 1 ∧
      b.hash = compute_hash b ∧ linked_from b rest

/-- A well-formed chain: the genesis block followed by properly linked,
properly indexed, hash-honest blocks. -/
def chain_wf (l : List Block) : Prop :=
  match l with
  | [] => False
  | g :: rest => g = genesis_block ∧ linked_from g rest

/-- The wallet-tracks-replay invariant of the chain store. -/
def wallet_matches_replay (s : ChainState) : Prop :=
  wallet_equiv s.wallet (replay_wallet (set_state s.genesis_state) s.chain.tail)

/-! ### Concrete scenario data used by counterexamples and witnesses -/

/-- A one-account genesis state: A holds 10 tokens. -/
def demo_gs : Wallet := [("A", ⟨10, 0⟩)]

def tx_ab : Tx := ⟨"A", "B", 10, 1, TxType.TRANSFER⟩

def tx_ac : Tx := ⟨"A", "C", 10, 2, TxType.TRANSFER⟩

/-- A fork block at height 1 spending A's whole balance twice: each
transaction passes the stateless admissibility check in isolation, but the
pair cannot be applied in sequence. -/
def fork1 : Block := mk_block 1 genesis_block.hash [tx_ab, tx_ac] "f" 7

/-- A child of `fork1` carrying no transactions. -/
def fork2 : Block := mk_block 2 fork1.hash [] "f" 8

/-- A chain store holding the genesis chain plus the stored side block
`fork1`. -/
def s_fork : ChainState :=
  { blocks_by_hash := [(genesis_block.hash, genesis_block), (fork1.hash, fork1)]
    chain := [genesis_block]
    wallet := set_state demo_gs
    genesis_state := demo_gs
    reorg_removed := none }

/-- A main-chain block at height 1 carrying no transactions. -/
def main1 : Block := mk_block 1 genesis_block.hash [] "m" 5

/-- A chain store whose main chain is genesis followed by `main1`. -/
def s_two : ChainState :=
  { blocks_by_hash := [(genesis_block.hash, genesis_block), (main1.hash, main1)]
    chain := [genesis_block, main1]
    wallet := set_state demo_gs
    genesis_state := demo_gs
    reorg_removed := none }

/-- A height-1 block containing the confirmed transfer `tx_ab`. -/
def c6_blk : Block := mk_block 1 genesis_block.hash [tx_ab] "n2" 4

/-- A structurally malformed block: index 5 and a dangling parent digest. -/
def c4_bad : Block := mk_block 5 (HashV.sha256 3 HashV.zeros64 3 "q" []) [] "x" 9

/-- A block whose only transaction has amount 0 and therefore fails
replay. -/
def bad_amount_blk : Block :=
  mk_block 1 genesis_block.hash [⟨"A", "B", 0, 1, TxType.TRANSFER⟩] "x" 6

/-- Detector records: a fresh transfer and a near-identical historical one
(same sender, different recipients, amounts 15 and 14, so the relative
difference is exactly 1/15 and the final similarity score is exactly
0.8). -/
def dtx_new : DTx := ⟨"A", "B", 15, "tx1"⟩

def dtx_old : DTx := ⟨"A", "C", 14, "tx2"⟩

/-- Histories restricted to hash-honest submitted blocks and well-formed
candidate chains. -/
inductive ReachWF (gs : Wallet) : ChainState → Prop
  | init : ReachWF gs (init_chain_state gs)
  | add (s : ChainState) (b : Block) (hb : b.hash = compute_hash b) :
      ReachWF gs s → ReachWF gs (add_block s b).1
  | reorg (s : ChainState) (nc : List Block) (hnc : chain_wf nc) :
      ReachWF gs s → ReachWF gs (reorganize_to_chain s nc).1
  | read (s : ChainState) (a : String) :
      ReachWF gs s → ReachWF gs { s with wallet := ensure_account s.wallet a }

/-- Per-entry well-formedness of the block index: an honest stored digest,
index-0 entries carrying the genesis digest, and a stored parent at the
previous digest with consecutive index. -/
def node_ok (m : List (HashV × Block)) (b : Block) : Prop :=
  b.hash = compute_hash b ∧
  (b.index = 0 → b.hash = genesis_block.hash) ∧
  (b.index ≠ 0 → ∃ p, assoc_find m b.prev_hash = some p ∧ b.index = p.index + 1)

/-- Every retrievable entry of the block index is keyed by its own digest
and well formed. -/
def map_ok (m : List (HashV × Block)) : Prop :=
  ∀ k v, assoc_find m k = some v → k = v.hash ∧ node_ok m v

/-- The chain-store invariant: a well-formed main chain together with a
well-formed block index. -/
def store_inv (s : ChainState) : Prop :=
  chain_wf s.chain ∧ map_ok s.blocks_by_hash

/-! ### Wallet lemmas -/

theorem get_acct_cons (b : String) (acc : Account) (w : Wallet) (x : String) :
    get_acct ((b, acc) :: w) x = if b = x then acc else get_acct w x := by
  by_cases h : b = x <;> simp [get_acct, List.find?, h]

theorem get_acct_nil (x : String) : get_acct ([] : Wallet) x = ⟨0, 0⟩ := rfl

theorem has_key_iff (w : Wallet) (a : String) :
    (w.any fun p => decide (p.1 = a)) = true ↔ ∃ acc, (a, acc) ∈ w := by
  induction w with
  | nil => simp
  | cons p rest ih =>
    rcases p with ⟨b, acc⟩
    by_cases h : b = a
    · subst h
      simp
    · simp only [List.any_cons, ih, Bool.or_eq_true, decide_eq_true_iff]
      constructor
      · rintro (h1 | ⟨acc2, h2⟩)
        · exact absurd h1 h
        · exact ⟨acc2, List.mem_cons_of_mem _ h2⟩
      · rintro ⟨acc2, h2⟩
        rcases List.mem_cons.mp h2 with h3 | h3
        · cases h3
          exact Or.inl rfl
        · exact Or.inr ⟨acc2, h3⟩

theorem get_acct_ensure (w : Wallet) (a x : String) :
    get_acct (ensure_account w a) x = get_acct w x := by
  unfold ensure_account
  split
  · rfl
  · rename_i hno
    induction w with
    | nil =>
      by_cases h : a = x <;> simp [get_acct, List.find?, h]
    | cons p rest ih =>
      rcases p with ⟨b, acc⟩
      simp only [List.any_cons, Bool.or_eq_true, decide_eq_true_iff, not_or] at hno
      rw [List.cons_append, get_acct_cons, get_acct_cons, ih hno.2]

theorem ensure_has_key (w : Wallet) (a : String) :
    ((ensure_account w a).any fun p => decide (p.1 = a)) = true := by
  unfold ensure_account
  split
  · assumption
  · rw [List.any_append]
    simp

theorem set_acct_cons (b : String) (acc2 : Account) (rest : Wallet) (a : String)
    (acc : Account) :
    set_acct ((b, acc2) :: rest) a acc =
      (if b = a then (a, acc) else (b, acc2)) :: set_acct rest a acc := by
  by_cases h : b = a <;> simp [set_acct, h]

theorem get_acct_set_acct_other (w : Wallet) (a : String) (acc : Account) (x : String)
    (hx : a ≠ x) : get_acct (set_acct w a acc) x = get_acct w x := by
  induction w with
  | nil => rfl
  | cons p rest ih =>
    rcases p with ⟨b, acc2⟩
    rw [set_acct_cons]
    by_cases h : b = a
    · subst h
      rw [if_pos rfl, get_acct_cons, get_acct_cons, if_neg hx, if_neg (by exact hx)]
      exact ih
    · rw [if_neg h, get_acct_cons, get_acct_cons]
      exact if_congr Iff.rfl rfl ih

theorem get_acct_set_acct_self (w : Wallet) (a : String) (acc : Account)
    (hk : (w.any fun p => decide (p.1 = a)) = true) :
    get_acct (set_acct w a acc) a = acc := by
  induction w with
  | nil => simp at hk
  | cons p rest ih =>
    rcases p with ⟨b, acc2⟩
    rw [set_acct_cons]
    by_cases h : b = a
    · subst h
      rw [if_pos rfl, get_acct_cons, if_pos rfl]
    · simp only [List.any_cons, Bool.or_eq_true, decide_eq_true_iff] at hk
      rcases hk with hk | hk
      · exact absurd hk h
      · rw [if_neg h, get_acct_cons, if_neg h]
        exact ih hk

theorem get_acct_deposit (w : Wallet) (a : String) (x : ℚ) (y : String) :
    get_acct (deposit w a x) y =
      if a = y then ⟨(get_acct w a).balance + x, (get_acct w a).stake⟩
      else get_acct w y := by
  show get_acct (set_acct (ensure_account w a) a
    ⟨(get_acct (ensure_account w a) a).balance + x,
     (get_acct (ensure_account w a) a).stake⟩) y = _
  rw [get_acct_ensure]
  by_cases h : a = y
  · subst h
    rw [if_pos rfl, get_acct_set_acct_self _ _ _ (ensure_has_key w a)]
  · rw [if_neg h, get_acct_set_acct_other _ _ _ _ h, get_acct_ensure]

theorem withdraw_fst (w : Wallet) (a : String) (x : ℚ) :
    (withdraw w a x).1 = !decide (x > get_balance w a) := by
  show (if x > (get_acct (ensure_account w a) a).balance then _ else
    ((true : Bool), _)).1 = _
  rw [show (get_acct (ensure_account w a) a).balance = get_balance w a from by
    rw [get_balance, get_acct_ensure]]
  split <;> simp_all

theorem get_acct_withdraw (w : Wallet) (a : String) (x : ℚ) (y : String) :
    get_acct (withdraw w a x).2 y =
      if x > get_balance w a then get_acct w y
      else if a = y then ⟨(get_acct w a).balance - x, (get_acct w a).stake⟩
      else get_acct w y := by
  show get_acct (if x > (get_acct (ensure_account w a) a).balance
      then ((false : Bool), ensure_account w a)
      else (true, set_acct (ensure_account w a) a
        ⟨(get_acct (ensure_account w a) a).balance - x,
         (get_acct (ensure_account w a) a).stake⟩)).2 y = _
  rw [show (get_acct (ensure_account w a) a).balance = get_balance w a from by
    rw [get_balance, get_acct_ensure]]
  split
  · exact get_acct_ensure w a y
  · by_cases h : a = y
    · subst h
      rw [if_pos rfl, get_acct_set_acct_self _ _ _ (ensure_has_key w a), get_acct_ensure]
      rfl
    · rw [if_neg h, get_acct_set_acct_other _ _ _ _ h, get_acct_ensure]

theorem stake_tokens_fst (w : Wallet) (a : String) (x : ℚ) :
    (stake_tokens w a x).1 = !decide (x > get_balance w a) := by
  show (if x > (get_acct (ensure_account w a) a).balance then _ else
    ((true : Bool), _)).1 = _
  rw [show (get_acct (ensure_account w a) a).balance = get_balance w a from by
    rw [get_balance, get_acct_ensure]]
  split <;> simp_all

theorem get_acct_stake_tokens (w : Wallet) (a : String) (x : ℚ) (y : String) :
    get_acct (stake_tokens w a x).2 y =
      if x > get_balance w a then get_acct w y
      else if a = y then ⟨(get_acct w a).balance - x, (get_acct w a).stake + x⟩
      else get_acct w y := by
  show get_acct (if x > (get_acct (ensure_account w a) a).balance
      then ((false : Bool), ensure_account w a)
      else (true, set_acct (ensure_account w a) a
        ⟨(get_acct (ensure_account w a) a).balance - x,
         (get_acct (ensure_account w a) a).stake + x⟩)).2 y = _
  rw [show (get_acct (ensure_account w a) a).balance = get_balance w a from by
    rw [get_balance, get_acct_ensure]]
  split
  · exact get_acct_ensure w a y
  · by_cases h : a = y
    · subst h
      rw [if_pos rfl, get_acct_set_acct_self _ _ _ (ensure_has_key w a), get_acct_ensure]
      rfl
    · rw [if_neg h, get_acct_set_acct_other _ _ _ _ h, get_acct_ensure]

theorem unstake_tokens_fst (w : Wallet) (a : String) (x : ℚ) :
    (unstake_tokens w a x).1 = !decide (x > get_stake w a) := by
  show (if x > (get_acct (ensure_account w a) a).stake then _ else
    ((true : Bool), _)).1 = _
  rw [show (get_acct (ensure_account w a) a).stake = get_stake w a from by
    rw [get_stake, get_acct_ensure]]
  split <;> simp_all

theorem get_acct_unstake_tokens (w : Wallet) (a : String) (x : ℚ) (y : String) :
    get_acct (unstake_tokens w a x).2 y =
      if x > get_stake w a then get_acct w y
      else if a = y then ⟨(get_acct w a).balance + x, (get_acct w a).stake - x⟩
      else get_acct w y := by
  show get_acct (if x > (get_acct (ensure_account w a) a).stake
      then ((false : Bool), ensure_account w a)
      else (true, set_acct (ensure_account w a) a
        ⟨(get_acct (ensure_account w a) a).balance + x,
         (get_acct (ensure_account w a) a).stake - x⟩)).2 y = _
  rw [show (get_acct (ensure_account w a) a).stake = get_stake w a from by
    rw [get_stake, get_acct_ensure]]
  split
  · exact get_acct_ensure w a y
  · by_cases h : a = y
    · subst h
      rw [if_pos rfl, get_acct_set_acct_self _ _ _ (ensure_has_key w a), get_acct_ensure]
      rfl
    · rw [if_neg h, get_acct_set_acct_other _ _ _ _ h, get_acct_ensure]

/-! ### Observational equivalence through the wallet operations -/

theorem wallet_equiv_refl (w : Wallet) : wallet_equiv w w := fun _ => rfl

theorem wallet_equiv_ensure (w : Wallet) (a : String) :
    wallet_equiv (ensure_account w a) w :=
  fun y => get_acct_ensure w a y

theorem get_balance_congr {w1 w2 : Wallet} (h : wallet_equiv w1 w2) (a : String) :
    get_balance w1 a = get_balance w2 a := by
  rw [get_balance, get_balance, h a]

theorem get_stake_congr {w1 w2 : Wallet} (h : wallet_equiv w1 w2) (a : String) :
    get_stake w1 a = get_stake w2 a := by
  rw [get_stake, get_stake, h a]

theorem tx_check_ok_congr {w1 w2 : Wallet} (h : wallet_equiv w1 w2) (t : Tx) :
    tx_check_ok w1 t = tx_check_ok w2 t := by
  unfold tx_check_ok
  rw [get_balance_congr h, get_stake_congr h]

theorem deposit_congr {w1 w2 : Wallet} (h : wallet_equiv w1 w2) (a : String) (x : ℚ) :
    wallet_equiv (deposit w1 a x) (deposit w2 a x) := by
  intro y
  rw [get_acct_deposit, get_acct_deposit, h a, h y]

theorem withdraw_congr {w1 w2 : Wallet} (h : wallet_equiv w1 w2) (a : String) (x : ℚ) :
    (withdraw w1 a x).1 = (withdraw w2 a x).1 ∧
      wallet_equiv (withdraw w1 a x).2 (withdraw w2 a x).2 := by
  refine ⟨?_, ?_⟩
  · rw [withdraw_fst, withdraw_fst, get_balance_congr h]
  · intro y
    rw [get_acct_withdraw, get_acct_withdraw, get_balance_congr h, h a, h y]

theorem stake_tokens_congr {w1 w2 : Wallet} (h : wallet_equiv w1 w2) (a : String) (x : ℚ) :
    (stake_tokens w1 a x).1 = (stake_tokens w2 a x).1 ∧
      wallet_equiv (stake_tokens w1 a x).2 (stake_tokens w2 a x).2 := by
  refine ⟨?_, ?_⟩
  · rw [stake_tokens_fst, stake_tokens_fst, get_balance_congr h]
  · intro y
    rw [get_acct_stake_tokens, get_acct_stake_tokens, get_balance_congr h, h a, h y]

theorem unstake_tokens_congr {w1 w2 : Wallet} (h : wallet_equiv w1 w2) (a : String) (x : ℚ) :
    (unstake_tokens w1 a x).1 = (unstake_tokens w2 a x).1 ∧
      wallet_equiv (unstake_tokens w1 a x).2 (unstake_tokens w2 a x).2 := by
  refine ⟨?_, ?_⟩
  · rw [unstake_tokens_fst, unstake_tokens_fst, get_stake_congr h]
  · intro y
    rw [get_acct_unstake_tokens, get_acct_unstake_tokens, get_stake_congr h, h a, h y]

theorem apply_txs_congr (vo : Bool) (txs : List Tx) :
    ∀ w1 w2, wallet_equiv w1 w2 →
      (apply_txs vo w1 txs).1 = (apply_txs vo w2 txs).1 ∧
      wallet_equiv (apply_txs vo w1 txs).2 (apply_txs vo w2 txs).2 := by
  induction txs with
  | nil =>
    intro w1 w2 h
    exact ⟨rfl, h⟩
  | cons t rest ih =>
    intro w1 w2 h
    simp only [apply_txs]
    rw [tx_check_ok_congr h t]
    by_cases hc : tx_check_ok w2 t = false
    · rw [if_pos hc, if_pos hc]
      exact ⟨rfl, h⟩
    · rw [if_neg hc, if_neg hc]
      by_cases hvo : vo
      · rw [if_pos hvo, if_pos hvo]
        exact ih w1 w2 h
      · rw [if_neg hvo, if_neg hvo]
        cases t.type with
        | TRANSFER =>
          exact ih _ _ (deposit_congr (withdraw_congr h t.sender t.amount).2 t.receiver t.amount)
        | STAKE =>
          obtain ⟨hfst, hsnd⟩ := stake_tokens_congr h t.sender t.amount
          rcases h1 : stake_tokens w1 t.sender t.amount with ⟨b1, u1⟩
          rcases h2 : stake_tokens w2 t.sender t.amount with ⟨b2, u2⟩
          rw [h1, h2] at hfst hsnd
          simp only at hfst hsnd
          subst hfst
          cases b1
          · exact ⟨rfl, hsnd⟩
          · exact ih u1 u2 hsnd
        | UNSTAKE =>
          obtain ⟨hfst, hsnd⟩ := unstake_tokens_congr h t.sender t.amount
          rcases h1 : unstake_tokens w1 t.sender t.amount with ⟨b1, u1⟩
          rcases h2 : unstake_tokens w2 t.sender t.amount with ⟨b2, u2⟩
          rw [h1, h2] at hfst hsnd
          simp only at hfst hsnd
          subst hfst
          cases b1
          · exact ⟨rfl, hsnd⟩
          · exact ih u1 u2 hsnd

theorem apply_block_congr {w1 w2 : Wallet} (h : wallet_equiv w1 w2) (b : Block) (vo : Bool) :
    (apply_block_to_wallet w1 b vo).1 = (apply_block_to_wallet w2 b vo).1 ∧
      wallet_equiv (apply_block_to_wallet w1 b vo).2 (apply_block_to_wallet w2 b vo).2 :=
  apply_txs_congr vo b.transactions w1 w2 h

theorem replay_wallet_congr (l : List Block) :
    ∀ w1 w2, wallet_equiv w1 w2 →
      wallet_equiv (replay_wallet w1 l) (replay_wallet w2 l) := by
  induction l with
  | nil => intro w1 w2 h; exact h
  | cons b rest ih =>
    intro w1 w2 h
    exact ih _ _ (apply_block_congr h b false).2

theorem replay_wallet_append (w : Wallet) (l : List Block) (b : Block) :
    replay_wallet w (l ++ [b]) = (apply_block_to_wallet (replay_wallet w l) b false).2 := by
  unfold replay_wallet
  rw [List.foldl_append]
  rfl

theorem replay_strict_eq_replay_wallet (l : List Block) :
    ∀ w w1, replay_strict w l = some w1 → replay_wallet w l = w1 := by
  induction l with
  | nil =>
    intro w w1 h
    simpa [replay_strict, replay_wallet] using h
  | cons b rest ih =>
    intro w w1 h
    rw [replay_strict] at h
    rcases hb : apply_block_to_wallet w b false with ⟨ok, w2⟩
    rw [hb] at h
    cases ok with
    | false => cases h
    | true =>
      have := ih w2 w1 h
      unfold replay_wallet at this ⊢
      rw [List.foldl_cons, hb]
      exact this

/-! ### Non-negativity through the wallet operations -/

theorem deposit_nonneg {w : Wallet} (hw : wallet_nonneg w) {x : ℚ} (hx : 0 ≤ x)
    (a : String) : wallet_nonneg (deposit w a x) := by
  intro y
  rw [get_balance, get_stake, get_acct_deposit]
  split
  · rename_i hay
    subst hay
    exact ⟨add_nonneg ((hw a).1) hx, (hw a).2⟩
  · exact hw y

theorem withdraw_nonneg {w : Wallet} (hw : wallet_nonneg w) (a : String) (x : ℚ) :
    wallet_nonneg (withdraw w a x).2 := by
  intro y
  rw [get_balance, get_stake, get_acct_withdraw]
  split
  · exact hw y
  · rename_i hle
    split
    · rename_i hay
      subst hay
      exact ⟨by simpa using sub_nonneg.mpr (not_lt.mp hle), (hw a).2⟩
    · exact hw y

theorem stake_tokens_nonneg {w : Wallet} (hw : wallet_nonneg w) {x : ℚ} (hx : 0 ≤ x)
    (a : String) : wallet_nonneg (stake_tokens w a x).2 := by
  intro y
  rw [get_balance, get_stake, get_acct_stake_tokens]
  split
  · exact hw y
  · rename_i hle
    split
    · rename_i hay
      subst hay
      exact ⟨by simpa using sub_nonneg.mpr (not_lt.mp hle), add_nonneg ((hw a).2) hx⟩
    · exact hw y

theorem unstake_tokens_nonneg {w : Wallet} (hw : wallet_nonneg w) {x : ℚ} (hx : 0 ≤ x)
    (a : String) : wallet_nonneg (unstake_tokens w a x).2 := by
  intro y
  rw [get_balance, get_stake, get_acct_unstake_tokens]
  split
  · exact hw y
  · rename_i hle
    split
    · rename_i hay
      subst hay
      exact ⟨add_nonneg ((hw a).1) hx, by simpa using sub_nonneg.mpr (not_lt.mp hle)⟩
    · exact hw y

theorem withdraw_failure_state (w : Wallet) (a : String) (x : ℚ)
    (h : (withdraw w a x).1 = false) : (withdraw w a x).2 = ensure_account w a := by
  simp only [withdraw] at h ⊢
  split at h
  · rename_i hgt
    simp only [if_pos hgt]
  · cases h

theorem stake_tokens_failure_state (w : Wallet) (a : String) (x : ℚ)
    (h : (stake_tokens w a x).1 = false) : (stake_tokens w a x).2 = ensure_account w a := by
  simp only [stake_tokens] at h ⊢
  split at h
  · rename_i hgt
    simp only [if_pos hgt]
  · cases h

theorem unstake_tokens_failure_state (w : Wallet) (a : String) (x : ℚ)
    (h : (unstake_tokens w a x).1 = false) : (unstake_tokens w a x).2 = ensure_account w a := by
  simp only [unstake_tokens] at h ⊢
  split at h
  · rename_i hgt
    simp only [if_pos hgt]
  · cases h

/-! ### Claim C2 -/

/-- C2, counterexample: the claim fails on the code for negative amounts.
`deposit` adds any amount unconditionally, so a deposit of -5 into a
fresh (trivially non-negative) wallet leaves a negative balance, and
`stake_tokens` with -5 passes its only check, reports success and leaves a
negative stake. -/
theorem c2_counterexample :
    get_balance (deposit [] "A" (-5)) "A" = -5 ∧
    (stake_tokens [("A", ⟨0, 0⟩)] "A" (-5)).1 = true ∧
    get_stake (stake_tokens [("A", ⟨0, 0⟩)] "A" (-5)).2 "A" = -5 := by
  refine ⟨?_, ?_, ?_⟩ <;>
    norm_num +decide [deposit, stake_tokens, get_balance, get_stake, get_acct,
      set_acct, ensure_account, List.find?]

/-- C2, amended: for non-negative amounts every wallet mutation preserves
non-negativity of all balances and stakes; `withdraw`, `stake_tokens` and
`unstake_tokens` fail exactly on insufficient funds and, on failure, leave
the wallet unchanged up to the implicit creation of a zero account
(`ensure_account`), so every balance and stake is unchanged.  `deposit`
never fails.  For negative amounts the guarantee does not hold
(`c2_counterexample`). -/
theorem c2_wallet_nonneg (w : Wallet) (a : String) (x : ℚ)
    (hw : wallet_nonneg w) (hx : 0 ≤ x) :
    wallet_nonneg (deposit w a x) ∧
    wallet_nonneg (withdraw w a x).2 ∧
    wallet_nonneg (stake_tokens w a x).2 ∧
    wallet_nonneg (unstake_tokens w a x).2 ∧
    ((withdraw w a x).1 = false ↔ get_balance w a < x) ∧
    ((stake_tokens w a x).1 = false ↔ get_balance w a < x) ∧
    ((unstake_tokens w a x).1 = false ↔ get_stake w a < x) ∧
    ((withdraw w a x).1 = false → (withdraw w a x).2 = ensure_account w a) ∧
    ((stake_tokens w a x).1 = false → (stake_tokens w a x).2 = ensure_account w a) ∧
    ((unstake_tokens w a x).1 = false → (unstake_tokens w a x).2 = ensure_account w a) := by
  refine ⟨deposit_nonneg hw hx a, withdraw_nonneg hw a x, stake_tokens_nonneg hw hx a,
    unstake_tokens_nonneg hw hx a, ?_, ?_, ?_,
    withdraw_failure_state w a x, stake_tokens_failure_state w a x,
    unstake_tokens_failure_state w a x⟩
  · rw [withdraw_fst]
    simp [gt_iff_lt]
  · rw [stake_tokens_fst]
    simp [gt_iff_lt]
  · rw [unstake_tokens_fst]
    simp [gt_iff_lt]

/-- Witness for `c2_wallet_nonneg` at a concrete wallet and amount. -/
theorem c2_wallet_nonneg_witness :
    wallet_nonneg [("A", (⟨3, 0⟩ : Account))] ∧ (0 : ℚ) ≤ 2 ∧
    wallet_nonneg (withdraw [("A", (⟨3, 0⟩ : Account))] "A" 2).2 ∧
    ((stake_tokens [("A", (⟨3, 0⟩ : Account))] "A" 2).1 = false ↔
      get_balance [("A", (⟨3, 0⟩ : Account))] "A" < 2) := by
  have hw : wallet_nonneg [("A", (⟨3, 0⟩ : Account))] := by
    intro y
    rw [get_balance, get_stake, get_acct_cons]
    split
    · exact ⟨by norm_num, le_refl 0⟩
    · exact ⟨le_refl 0, le_refl 0⟩
  have hx : (0 : ℚ) ≤ 2 := by norm_num
  exact ⟨hw, hx, (c2_wallet_nonneg _ "A" 2 hw hx).2.1,
    (c2_wallet_nonneg _ "A" 2 hw hx).2.2.2.2.2.1⟩

/-! ### Claim C3: the live wallet tracks the replay of the main chain -/

theorem wallet_equiv_trans {w1 w2 w3 : Wallet}
    (h1 : wallet_equiv w1 w2) (h2 : wallet_equiv w2 w3) : wallet_equiv w1 w3 :=
  fun a => (h1 a).trans (h2 a)

theorem validate_true_chain_ne_nil (s : ChainState) (b : Block)
    (h : validate_block s b = some true) : s.chain ≠ [] := by
  intro hnil
  rw [validate_block] at h
  rw [hnil] at h
  simp only [List.head?_nil, List.getLast?_nil] at h
  split at h
  · cases h
  · split at h
    · cases h
    · split at h
      · simp at h
      · split at h
        · simp at h
        · cases h

theorem wmr_apply_reorg (s : ChainState) (nc : List Block) (ca : Block)
    (h : wallet_matches_replay s) : wallet_matches_replay (apply_reorg s nc ca).1 := by
  rw [apply_reorg]
  rcases hr : replay_strict (set_state s.genesis_state) nc.tail with _ | w
  · exact h
  · intro a
    rw [replay_strict_eq_replay_wallet nc.tail (set_state s.genesis_state) w hr]

theorem wmr_reorganize_chain (s : ChainState) (nh : Block)
    (h : wallet_matches_replay s) : wallet_matches_replay (reorganize_chain s nh).1 := by
  rw [reorganize_chain]
  rcases hcb : collect_branch s.blocks_by_hash (List.map (fun b => b.hash) s.chain)
      (nh.index + s.blocks_by_hash.length + 2) (some nh) with _ | ⟨branch, stop⟩
  · exact h
  · rcases stop with _ | ca
    all_goals dsimp only
    · have hwmr := wmr_apply_reorg s
        (s.chain.take ((s.chain.getD 0 genesis_block).index + 1) ++ branch.reverse)
        (s.chain.getD 0 genesis_block) h
      rcases har : apply_reorg s
        (s.chain.take ((s.chain.getD 0 genesis_block).index + 1) ++ branch.reverse)
        (s.chain.getD 0 genesis_block) with ⟨s1, ok⟩
      rw [har] at hwmr
      cases ok
      · exact hwmr
      · exact hwmr
    · have hwmr := wmr_apply_reorg s
        (s.chain.take (ca.index + 1) ++ branch.reverse) ca h
      rcases har : apply_reorg s
        (s.chain.take (ca.index + 1) ++ branch.reverse) ca with ⟨s1, ok⟩
      rw [har] at hwmr
      cases ok
      · exact hwmr
      · exact hwmr

theorem wmr_add_block (s : ChainState) (b : Block)
    (h : wallet_matches_replay s) : wallet_matches_replay (add_block s b).1 := by
  rw [add_block]
  rcases hv : validate_block s b with _ | bv
  · exact h
  · cases bv
    · exact h
    · dsimp only
      split
      · intro a
        have hne := validate_true_chain_ne_nil s b hv
        obtain ⟨c, cs, hc⟩ := List.exists_cons_of_ne_nil hne
        show get_acct (apply_block_to_wallet s.wallet b false).2 a =
          get_acct (replay_wallet (set_state s.genesis_state) ((s.chain ++ [b]).tail)) a
        rw [show (s.chain ++ [b]).tail = s.chain.tail ++ [b] from by rw [hc]; rfl]
        rw [replay_wallet_append]
        exact (apply_block_congr h b false).2 a
      · split
        · exact wmr_reorganize_chain _ b h
        · exact h

theorem wmr_load_from_files (s : ChainState) (inp : LoadInput)
    (h : wallet_matches_replay s) : wallet_matches_replay (load_from_files s inp).1 := by
  cases inp with
  | missing => exact h
  | corrupt => exact h
  | parsed blocks =>
    rw [load_from_files.eq_def]
    dsimp only
    rcases hr : replay_strict (set_state s.genesis_state) blocks.tail with _ | w
    · exact h
    · intro a
      rw [replay_strict_eq_replay_wallet blocks.tail (set_state s.genesis_state) w hr]

/-- C3 (confirmed): at every quiescent point of any chain-store history —
in particular after every completed `add_block`, `reorganize_to_chain` and
`load_from_files` call — the live wallet agrees, on every account, with the
wallet obtained by replaying `chain[1..]` in order from the genesis state,
including histories in which an appended block passed validation but failed
partway through application (the append path ignores the application flag,
and the replay applies blocks with exactly the same partial-application
semantics).  Wallet equality is observational: both wallets read the same
balance and stake for every account, which is insensitive to the implicit
zero accounts created by reads. -/
theorem c3_wallet_replay (gs : Wallet) (s : ChainState) (h : Reach gs s) :
    wallet_equiv s.wallet
      (replay_wallet (set_state s.genesis_state) s.chain.tail) := by
  induction h with
  | init => exact fun a => rfl
  | add s0 b hr ih => exact wmr_add_block s0 b ih
  | reorg s0 nc hr ih =>
    rw [reorganize_to_chain]
    split
    · exact ih
    · rcases hca : find_common_ancestor s0.chain nc with _ | ca
      all_goals dsimp only
      · exact ih
      · have hwmr := wmr_apply_reorg s0 nc ca ih
        rcases har : apply_reorg s0 nc ca with ⟨s1, ok⟩
        rw [har] at hwmr
        cases ok
        · exact hwmr
        · exact hwmr
  | load s0 inp hr ih => exact wmr_load_from_files s0 inp ih
  | read s0 a hr ih =>
    exact wallet_equiv_trans (wallet_equiv_ensure s0.wallet a) ih

/-- Witness for `c3_wallet_replay` on the concrete history of spec scenario
S1: genesis state A=100, B=0, then one appended block transferring 40 from
A to B. -/
theorem c3_wallet_replay_witness :
    get_acct (add_block (init_chain_state [("A", ⟨100, 0⟩), ("B", ⟨0, 0⟩)])
        (mk_block 1 genesis_block.hash [⟨"A", "B", 40, 1, TxType.TRANSFER⟩] "n1" 10)).1.wallet
        "A" =
      get_acct (replay_wallet
        (set_state (add_block (init_chain_state [("A", ⟨100, 0⟩), ("B", ⟨0, 0⟩)])
          (mk_block 1 genesis_block.hash [⟨"A", "B", 40, 1, TxType.TRANSFER⟩] "n1" 10)).1.genesis_state)
        (add_block (init_chain_state [("A", ⟨100, 0⟩), ("B", ⟨0, 0⟩)])
          (mk_block 1 genesis_block.hash [⟨"A", "B", 40, 1, TxType.TRANSFER⟩] "n1" 10)).1.chain.tail)
        "A" :=
  c3_wallet_replay [("A", ⟨100, 0⟩), ("B", ⟨0, 0⟩)] _
    (Reach.add _ _ (Reach.init)) "A"

/-! ### Claim C5: reorganization is atomic on failure -/

theorem apply_reorg_unchanged_of_failed (s : ChainState) (nc : List Block) (ca : Block)
    (h : (apply_reorg s nc ca).2 = false) : (apply_reorg s nc ca).1 = s := by
  rw [apply_reorg] at h ⊢
  rcases hr : replay_strict (set_state s.genesis_state) nc.tail with _ | w
  · rfl
  · rw [hr] at h
    simp at h

/-- C5 (confirmed): when the replay of the candidate chain fails, the
reorganization raises and the state at the point where the reorganization
was invoked is untouched: `reorganize_to_chain` (and the internal fork
switch `_reorganize_chain`) return their input state unchanged — wallet,
main chain and block index included — and on the `add_block` path the state
at the invocation of the reorganization is the pre-call state with the
already validated block stored, which is exactly what remains. -/
theorem c5_reorg_atomicity :
    (∀ s nc, (reorganize_to_chain s nc).2 = ReorgResult.failed →
      (reorganize_to_chain s nc).1 = s) ∧
    (∀ s nh, (reorganize_chain s nh).2 = AddResult.reorg_failed →
      (reorganize_chain s nh).1 = s) ∧
    (∀ s b, (add_block s b).2 = AddResult.reorg_failed →
      (add_block s b).1.wallet = s.wallet ∧ (add_block s b).1.chain = s.chain ∧
      (add_block s b).1.blocks_by_hash = map_insert s.blocks_by_hash b.hash b) := by
  have key2 : ∀ s nh, (reorganize_chain s nh).2 = AddResult.reorg_failed →
      (reorganize_chain s nh).1 = s := by
    intro s nh h
    rw [reorganize_chain] at h ⊢
    rcases hcb : collect_branch s.blocks_by_hash (List.map (fun b => b.hash) s.chain)
        (nh.index + s.blocks_by_hash.length + 2) (some nh) with _ | ⟨branch, stop⟩
    case none => rw [hcb] at h <;> simp at h
    case some.mk =>
      rw [hcb] at h
      rcases stop with _ | ca
      all_goals dsimp only at h ⊢
      · rcases har : apply_reorg s
            (s.chain.take ((s.chain.getD 0 genesis_block).index + 1) ++ branch.reverse)
            (s.chain.getD 0 genesis_block) with ⟨s1, ok⟩
        rw [har] at h
        cases ok
        · have h2 := apply_reorg_unchanged_of_failed s
            (s.chain.take ((s.chain.getD 0 genesis_block).index + 1) ++ branch.reverse)
            (s.chain.getD 0 genesis_block) (by rw [har])
          rw [har] at h2
          exact h2
        · simp at h
      · rcases har : apply_reorg s
            (s.chain.take (ca.index + 1) ++ branch.reverse) ca with ⟨s1, ok⟩
        rw [har] at h
        cases ok
        · have h2 := apply_reorg_unchanged_of_failed s
            (s.chain.take (ca.index + 1) ++ branch.reverse) ca (by rw [har])
          rw [har] at h2
          exact h2
        · simp at h
  refine ⟨?_, key2, ?_⟩
  · intro s nc h
    rw [reorganize_to_chain] at h ⊢
    split at h
    · simp at h
    · rename_i hne
      rw [if_neg hne]
      rcases hca : find_common_ancestor s.chain nc with _ | ca
      case none => rw [hca] at h <;> simp at h
      case some =>
        rw [hca] at h
        dsimp only at h ⊢
        rcases har : apply_reorg s nc ca with ⟨s1, ok⟩
        rw [har] at h
        cases ok
        · have h2 := apply_reorg_unchanged_of_failed s nc ca (by rw [har])
          rw [har] at h2
          exact h2
        · simp at h
  · intro s b h
    rw [add_block] at h ⊢
    rcases hv : validate_block s b with _ | bv
    case none => rw [hv] at h <;> simp at h
    case some =>
      rw [hv] at h
      cases bv
      · simp at h
      · dsimp only at h ⊢
        split at h
        · simp at h
        · rename_i hprev
          rw [if_neg hprev]
          split at h
          · rename_i hgt
            rw [if_pos hgt]
            have h1 := key2 _ b h
            rw [h1]
            exact ⟨rfl, rfl, rfl⟩
          · simp at h

/-- Witness for `c5_reorg_atomicity` on concrete failing reorganizations:
an external adoption of a chain whose replay fails, and a stored fork
switch whose replay fails. -/
theorem c5_reorg_atomicity_witness :
    ((reorganize_to_chain (init_chain_state demo_gs) [genesis_block, fork1]).2 =
      ReorgResult.failed) ∧
    ((reorganize_to_chain (init_chain_state demo_gs) [genesis_block, fork1]).1 =
      init_chain_state demo_gs) ∧
    ((reorganize_chain s_fork fork2).2 = AddResult.reorg_failed) ∧
    ((reorganize_chain s_fork fork2).1 = s_fork) ∧
    ((add_block s_fork fork2).2 = AddResult.reorg_failed) ∧
    ((add_block s_fork fork2).1.wallet = s_fork.wallet ∧
      (add_block s_fork fork2).1.chain = s_fork.chain ∧
      (add_block s_fork fork2).1.blocks_by_hash =
        map_insert s_fork.blocks_by_hash fork2.hash fork2) := by
  have e1 : (reorganize_to_chain (init_chain_state demo_gs) [genesis_block, fork1]).2 =
      ReorgResult.failed := by
    norm_num +decide [reorganize_to_chain, find_common_ancestor, apply_reorg,
      replay_strict, apply_block_to_wallet, apply_txs, tx_check_ok, get_balance,
      get_stake, get_acct, set_acct, ensure_account, deposit, withdraw, set_state,
      init_chain_state, genesis_block, mk_block, compute_hash, demo_gs, fork1,
      tx_ab, tx_ac, List.find?, List.any]
  have e2 : (reorganize_chain s_fork fork2).2 = AddResult.reorg_failed := by
    norm_num +decide [reorganize_chain, collect_branch, apply_reorg, assoc_find,
      replay_strict, apply_block_to_wallet, apply_txs, tx_check_ok, get_balance,
      get_stake, get_acct, set_acct, ensure_account, deposit, withdraw, set_state,
      s_fork, genesis_block, mk_block, compute_hash, demo_gs, fork1, fork2,
      tx_ab, tx_ac, List.find?, List.any]
  have e3 : (add_block s_fork fork2).2 = AddResult.reorg_failed := by
    norm_num +decide [add_block, validate_block, head_block, branch_blocks,
      reorganize_chain, collect_branch, apply_reorg, assoc_find, map_insert,
      replay_strict, apply_block_to_wallet, apply_txs, tx_check_ok, get_balance,
      get_stake, get_acct, set_acct, ensure_account, deposit, withdraw, set_state,
      s_fork, genesis_block, mk_block, compute_hash, demo_gs, fork1, fork2,
      tx_ab, tx_ac, List.find?, List.any, List.all]
  exact ⟨e1, c5_reorg_atomicity.1 _ _ e1, e2, c5_reorg_atomicity.2.1 _ _ e2, e3,
    c5_reorg_atomicity.2.2 _ _ e3⟩

/-! ### Claim C1: what validate_block actually checks -/

theorem apply_txs_validate_only_iff (w : Wallet) (txs : List Tx) :
    (apply_txs true w txs).1 = true ↔ ∀ t ∈ txs, tx_check_ok w t = true := by
  induction txs with
  | nil => simp [apply_txs]
  | cons t rest ih =>
    by_cases hc : tx_check_ok w t = false
    · simp [apply_txs, hc]
    · have hct : tx_check_ok w t = true := by
        revert hc
        cases tx_check_ok w t <;> simp
      simp [apply_txs, hc, hct, ih]

/-- C1, counterexample to the claim as stated: a block whose transactions
cannot be applied in sequence (each spends A's entire balance) is
nevertheless accepted by `validate_block`, because the validation checks
every transaction against the unmodified parent-state wallet without
applying effects; the stateful sequential application of the same block
fails. -/
theorem c1_counterexample :
    validate_block (init_chain_state demo_gs) fork1 = some true ∧
    (apply_block_to_wallet (init_chain_state demo_gs).wallet fork1 false).1 = false := by
  constructor
  · norm_num +decide [validate_block, head_block, assoc_find, branch_blocks,
      apply_block_to_wallet, apply_txs, tx_check_ok, get_balance, get_stake,
      get_acct, set_acct, ensure_account, set_state, init_chain_state,
      genesis_block, mk_block, compute_hash, demo_gs, fork1, tx_ab, tx_ac,
      List.find?, List.any, List.all]
  · norm_num +decide [apply_block_to_wallet, apply_txs, tx_check_ok, get_balance,
      get_stake, get_acct, set_acct, ensure_account, deposit, withdraw, set_state,
      init_chain_state, genesis_block, mk_block, compute_hash, demo_gs, fork1,
      tx_ab, tx_ac, List.find?, List.any]

/-- C1, amended: for a block of positive index, `validate_block` is a pure
predicate (it returns a verdict and no state) and accepts exactly when a
stored parent exists, the index is the parent's successor, the recomputed
hash matches, and every transaction passes its per-transaction
admissibility check against an unmodified wallet: the live wallet when the
parent is the current head, otherwise a genesis-state wallet (the blocks on
the stored path to the parent are check-replayed without applying their
effects, so the wallet stays at the genesis state, and their own checks
must pass there too).  Effects of earlier transactions are not visible to
later checks. -/
theorem c1_validate_block_characterization (s : ChainState) (b : Block)
    (hidx : ¬b.index = 0) (hd : Block) (hhd : s.chain.getLast? = some hd) :
    validate_block s b = some true ↔
      ∃ parent, assoc_find s.blocks_by_hash b.prev_hash = some parent ∧
        b.index = parent.index + 1 ∧ compute_hash b = b.hash ∧
        (if parent.hash = hd.hash then
          ∀ t ∈ b.transactions, tx_check_ok s.wallet t = true
        else
          ∃ path, branch_blocks s.blocks_by_hash
              (parent.index + s.blocks_by_hash.length + 2) parent = some path ∧
            (∀ pb ∈ path, ∀ t ∈ pb.transactions,
              tx_check_ok (set_state s.genesis_state) t = true) ∧
            (∀ t ∈ b.transactions,
              tx_check_ok (set_state s.genesis_state) t = true)) := by
  rw [validate_block, if_neg hidx]
  rcases hp : assoc_find s.blocks_by_hash b.prev_hash with _ | parent
  · simp
  · simp only [Option.some.injEq]
    constructor
    · intro h
      refine ⟨parent, rfl, ?_⟩
      split at h
      · cases h
      · rename_i hidx2
        rw [not_not] at hidx2
        refine ⟨hidx2, ?_⟩
        split at h
        · cases h
        · rename_i hch
          rw [not_not] at hch
          refine ⟨hch, ?_⟩
          rw [hhd] at h
          dsimp only at h
          split at h
          · rename_i hph
            rw [if_pos hph]
            rw [Option.some.injEq] at h
            exact (apply_txs_validate_only_iff s.wallet b.transactions).mp h
          · rename_i hph
            rw [if_neg hph]
            rcases hbb : branch_blocks s.blocks_by_hash
                (parent.index + s.blocks_by_hash.length + 2) parent with _ | branch
            · rw [hbb] at h
              cases h
            · rw [hbb] at h
              rw [Option.some.injEq, Bool.and_eq_true] at h
              refine ⟨branch, rfl, ?_, ?_⟩
              · intro pb hpb t ht
                have hall := h.1
                rw [List.all_eq_true] at hall
                have := hall pb (List.mem_reverse.mpr hpb)
                rw [apply_block_to_wallet, apply_txs_validate_only_iff] at this
                exact this t ht
              · exact (apply_txs_validate_only_iff _ _).mp h.2
    · rintro ⟨parent2, hp2, hidx2, hch, hrest⟩
      subst hp2
      rw [if_neg (by rw [hidx2]; exact fun hne => absurd rfl hne)]
      rw [if_neg (by rw [hch]; exact fun hne => absurd rfl hne)]
      rw [hhd]
      dsimp only
      split
      · rename_i hph
        rw [if_pos hph] at hrest
        rw [Option.some.injEq]
        exact (apply_txs_validate_only_iff s.wallet b.transactions).mpr hrest
      · rename_i hph
        rw [if_neg hph] at hrest
        obtain ⟨path, hpath, hall, hb⟩ := hrest
        rw [hpath]
        rw [Option.some.injEq, Bool.and_eq_true]
        constructor
        · rw [List.all_eq_true]
          intro pb hpb
          rw [apply_block_to_wallet, apply_txs_validate_only_iff]
          exact hall pb (List.mem_reverse.mp hpb)
        · exact (apply_txs_validate_only_iff _ _).mpr hb

/-- Witness for `c1_validate_block_characterization` at a concrete store
and block whose parent is a stored side block. -/
theorem c1_validate_block_characterization_witness :
    ¬fork2.index = 0 ∧ s_fork.chain.getLast? = some genesis_block ∧
    (validate_block s_fork fork2 = some true ↔
      ∃ parent, assoc_find s_fork.blocks_by_hash fork2.prev_hash = some parent ∧
        fork2.index = parent.index + 1 ∧ compute_hash fork2 = fork2.hash ∧
        (if parent.hash = genesis_block.hash then
          ∀ t ∈ fork2.transactions, tx_check_ok s_fork.wallet t = true
        else
          ∃ path, branch_blocks s_fork.blocks_by_hash
              (parent.index + s_fork.blocks_by_hash.length + 2) parent = some path ∧
            (∀ pb ∈ path, ∀ t ∈ pb.transactions,
              tx_check_ok (set_state s_fork.genesis_state) t = true) ∧
            (∀ t ∈ fork2.transactions,
              tx_check_ok (set_state s_fork.genesis_state) t = true))) := by
  refine ⟨by decide, by rfl, ?_⟩
  exact c1_validate_block_characterization s_fork fork2 (by decide) genesis_block (by rfl)

/-! ### Claim C6: mempool recovery on reorg -/

/-- C6, counterexample to the claim as stated: a successful external
reorganization adopts a chain containing `tx_ab` while removing no block;
with `tx_ab` sitting in the mempool, the recovery handler `_on_reorg`
appends nothing and removes nothing, so a transaction present in the new
main chain remains in the mempool. -/
theorem c6_counterexample :
    (reorganize_to_chain (init_chain_state demo_gs) [genesis_block, c6_blk]).2 =
      ReorgResult.done ∧
    (reorganize_to_chain (init_chain_state demo_gs) [genesis_block, c6_blk]).1.chain =
      [genesis_block, c6_blk] ∧
    (reorganize_to_chain (init_chain_state demo_gs)
      [genesis_block, c6_blk]).1.reorg_removed = some [] ∧
    on_reorg [genesis_block, c6_blk] [] [tx_ab] = [tx_ab] ∧
    tx_id tx_ab ∈ confirmed_tx_ids [genesis_block, c6_blk] := by
  have he : reorganize_to_chain (init_chain_state demo_gs) [genesis_block, c6_blk] =
      ({ blocks_by_hash := rebuild_index [genesis_block, c6_blk]
         chain := [genesis_block, c6_blk]
         wallet := (apply_block_to_wallet (set_state demo_gs) c6_blk false).2
         genesis_state := demo_gs
         reorg_removed := some [] }, ReorgResult.done) := by
    norm_num +decide [reorganize_to_chain, find_common_ancestor, apply_reorg,
      replay_strict, apply_block_to_wallet, apply_txs, tx_check_ok, get_balance,
      get_stake, get_acct, set_acct, ensure_account, deposit, withdraw, set_state,
      init_chain_state, genesis_block, mk_block, compute_hash,
      demo_gs, c6_blk, tx_ab, List.find?, List.any]
  refine ⟨by rw [he], by rw [he], by rw [he], by decide, by decide⟩

/-- C6, amended: after `_on_reorg`, every transaction of a removed block
whose identity is not in the new main chain has been appended to the
mempool (without any duplicate check, so duplicates can arise), and the
handler removes nothing: every prior mempool entry is still present — in
particular transactions contained in the new main chain are not evicted. -/
theorem c6_mempool_recovery (chain removed : List Block) (mempool : List Tx) :
    on_reorg chain removed mempool =
      mempool ++ removed.flatMap (fun blk =>
        blk.transactions.filter fun t => decide (tx_id t ∉ confirmed_tx_ids chain)) ∧
    (∀ t ∈ mempool, t ∈ on_reorg chain removed mempool) ∧
    (∀ blk ∈ removed, ∀ t ∈ blk.transactions,
      tx_id t ∉ confirmed_tx_ids chain → t ∈ on_reorg chain removed mempool) := by
  refine ⟨rfl, ?_, ?_⟩
  · intro t ht
    exact List.mem_append_left _ ht
  · intro blk hblk t ht hid
    refine List.mem_append_right _ ?_
    rw [List.mem_flatMap]
    refine ⟨blk, hblk, ?_⟩
    rw [List.mem_filter]
    exact ⟨ht, by rwa [decide_eq_true_iff]⟩

/-- Witness for `c6_mempool_recovery`: a removed block carrying `tx_ac`,
which is absent from the new chain, re-enters the mempool. -/
theorem c6_mempool_recovery_witness :
    tx_ab ∈ [tx_ab] ∧ tx_ab ∈ on_reorg [genesis_block, c6_blk] [fork1] [tx_ab] ∧
    fork1 ∈ [fork1] ∧ tx_ac ∈ fork1.transactions ∧
    tx_id tx_ac ∉ confirmed_tx_ids [genesis_block, c6_blk] ∧
    tx_ac ∈ on_reorg [genesis_block, c6_blk] [fork1] [tx_ab] := by
  refine ⟨by decide, ?_, by decide, by decide, by decide, ?_⟩
  · exact (c6_mempool_recovery [genesis_block, c6_blk] [fork1] [tx_ab]).2.1 tx_ab
      (by decide)
  · exact (c6_mempool_recovery [genesis_block, c6_blk] [fork1] [tx_ab]).2.2 fork1
      (by decide) tx_ac (by decide) (by decide)

/-! ### Claim C7: sync processing -/

theorem sync_fold_snd_mono (rs : List SyncResponse) :
    ∀ acc : Option (List Block) × ℤ, acc.2 ≤ (rs.foldl sync_step acc).2 := by
  induction rs with
  | nil => intro acc; exact le_refl _
  | cons r rest ih =>
    intro acc
    rw [List.foldl_cons]
    refine le_trans ?_ (ih (sync_step acc r))
    rw [sync_step]
    split
    · rename_i hgt
      exact le_of_lt hgt
    · exact le_refl _

theorem sync_fold_ge_mem (rs : List SyncResponse) :
    ∀ acc : Option (List Block) × ℤ, ∀ r ∈ rs,
      (r.blocks.length : ℤ) ≤ (rs.foldl sync_step acc).2 := by
  induction rs with
  | nil => intro acc r hr; cases hr
  | cons r0 rest ih =>
    intro acc r hr
    rw [List.foldl_cons]
    rcases List.mem_cons.mp hr with h0 | h0
    · subst h0
      refine le_trans ?_ (sync_fold_snd_mono rest (sync_step acc r))
      rw [sync_step]
      split
      · exact le_refl _
      · rename_i hle
        exact le_of_not_lt hle
    · exact ih (sync_step acc r0) r h0

theorem sync_fold_len (rs : List SyncResponse) :
    ∀ acc : Option (List Block) × ℤ,
      (∀ bl, acc.1 = some bl → acc.2 = (bl.length : ℤ)) →
      ∀ bl, (rs.foldl sync_step acc).1 = some bl →
        (rs.foldl sync_step acc).2 = (bl.length : ℤ) := by
  induction rs with
  | nil => intro acc h bl hbl; exact h bl hbl
  | cons r rest ih =>
    intro acc h bl hbl
    rw [List.foldl_cons] at hbl ⊢
    refine ih (sync_step acc r) ?_ bl hbl
    intro bl2 hbl2
    rw [sync_step] at hbl2 ⊢
    split at hbl2
    · rw [Option.some.injEq] at hbl2
      subst hbl2
      split
      · rfl
      · rename_i hc hc2
        exact absurd hc hc2
    · rename_i hc
      rw [if_neg hc]
      exact h bl2 hbl2

theorem sync_fold_provenance (rs : List SyncResponse) :
    ∀ acc : Option (List Block) × ℤ, ∀ bl,
      (rs.foldl sync_step acc).1 = some bl →
      acc.1 = some bl ∨ ∃ r ∈ rs, r.blocks = bl := by
  induction rs with
  | nil => intro acc bl h; exact Or.inl h
  | cons r rest ih =>
    intro acc bl h
    rw [List.foldl_cons] at h
    rcases ih (sync_step acc r) bl h with h1 | h1
    · rw [sync_step] at h1
      split at h1
      · rw [Option.some.injEq] at h1
        exact Or.inr ⟨r, List.mem_cons_self r rest, h1⟩
      · exact Or.inl h1
    · obtain ⟨r2, hr2, he⟩ := h1
      exact Or.inr ⟨r2, List.mem_cons_of_mem r hr2, he⟩

/-- C7, counterexample to the claim as stated: a best received chain that
is shorter than the local chain still triggers a reorganization and the
local chain changes, because `_process_sync_responses` compares only hash
sequences and never lengths. -/
theorem c7_counterexample :
    (select_longest_chain [⟨"n2", [genesis_block]⟩] = some [genesis_block]) ∧
    ([genesis_block].length < s_two.chain.length) ∧
    (process_sync_responses s_two [⟨"n2", [genesis_block]⟩]).1.chain =
      [genesis_block] ∧
    (process_sync_responses s_two [⟨"n2", [genesis_block]⟩]).1.chain ≠
      s_two.chain := by
  refine ⟨by decide, by decide, ?_, ?_⟩ <;>
    · norm_num +decide [process_sync_responses, select_longest_chain, sync_step,
        reorganize_to_chain, find_common_ancestor, apply_reorg, replay_strict,
        rebuild_index, map_insert, set_state, s_two, main1, init_chain_state,
        genesis_block, mk_block, compute_hash, demo_gs, List.find?, List.any]

/-- C7, amended: when the sync timeout fires with at least one response,
the node selects a longest received chain (the first one among ties) and
invokes `reorganize_to_chain` exactly when the selected chain's hash
sequence differs from the local one — with no requirement that it be
strictly longer; an identical hash sequence (or an empty response set)
leaves the chain store untouched. -/
theorem c7_sync_processing (s : ChainState) (responses : List SyncResponse)
    (best : List Block) (hsel : select_longest_chain responses = some best) :
    (∃ r ∈ responses, r.blocks = best) ∧
    (∀ r ∈ responses, r.blocks.length ≤ best.length) ∧
    (s.chain.map (fun b => b.hash) = best.map (fun b => b.hash) →
      process_sync_responses s responses = (s, false)) ∧
    (s.chain.map (fun b => b.hash) ≠ best.map (fun b => b.hash) →
      process_sync_responses s responses = ((reorganize_to_chain s best).1, true)) := by
  have hne : responses ≠ [] := by
    intro h
    rw [h] at hsel
    cases hsel
  have hmem : ∃ r ∈ responses, r.blocks = best := by
    rcases sync_fold_provenance responses ((none : Option (List Block)), (-1 : ℤ))
        best hsel with h1 | h1
    · cases h1
    · exact h1
  have hlen : ∀ r ∈ responses, r.blocks.length ≤ best.length := by
    intro r hr
    have h1 := sync_fold_ge_mem responses ((none : Option (List Block)), (-1 : ℤ)) r hr
    have h2 := sync_fold_len responses ((none : Option (List Block)), (-1 : ℤ))
      (by intro bl h; cases h) best hsel
    rw [h2] at h1
    exact_mod_cast h1
  refine ⟨hmem, hlen, ?_, ?_⟩
  · intro hhash
    rw [process_sync_responses, if_neg hne, hsel]
    dsimp only
    rw [if_pos hhash]
  · intro hhash
    rw [process_sync_responses, if_neg hne, hsel]
    dsimp only
    rw [if_neg hhash]

/-- Witness for `c7_sync_processing` at a concrete response set whose best
chain differs from (and is shorter than) the local chain. -/
theorem c7_sync_processing_witness :
    select_longest_chain [⟨"n2", [genesis_block]⟩] = some [genesis_block] ∧
    (∃ r ∈ [(⟨"n2", [genesis_block]⟩ : SyncResponse)], r.blocks = [genesis_block]) ∧
    (s_two.chain.map (fun b => b.hash) ≠ [genesis_block].map (fun b => b.hash) →
      process_sync_responses s_two [⟨"n2", [genesis_block]⟩] =
        ((reorganize_to_chain s_two [genesis_block]).1, true)) := by
  have hsel : select_longest_chain [(⟨"n2", [genesis_block]⟩ : SyncResponse)] =
      some [genesis_block] := by decide
  exact ⟨hsel, (c7_sync_processing s_two _ _ hsel).1,
    (c7_sync_processing s_two _ _ hsel).2.2.2⟩

/-! ### Claim C9: detector severity thresholds -/

theorem severity_of_spec (x : ℚ) :
    (severity_of x = "HIGH" ↔ 4 / 5 < x) ∧
    (severity_of x = "MEDIUM" ↔ 3 / 5 < x ∧ x ≤ 4 / 5) ∧
    (severity_of x = "LOW" ↔ x ≤ 3 / 5) := by
  rw [severity_of]
  by_cases h1 : x > 4 / 5
  · rw [if_pos h1]
    refine ⟨by simp [h1], ?_, ?_⟩
    · simp only [show (("HIGH" : String) = "MEDIUM") = False from by simp, false_iff]
      intro hc
      exact absurd h1 (not_lt.mpr hc.2)
    · simp only [show (("HIGH" : String) = "LOW") = False from by simp, false_iff]
      intro hc
      exact absurd hc (not_le.mpr (lt_trans (by norm_num) h1))
  · rw [if_neg h1]
    by_cases h2 : x > 3 / 5
    · rw [if_pos h2]
      refine ⟨?_, ?_, ?_⟩
      · simp only [show (("MEDIUM" : String) = "HIGH") = False from by simp, false_iff]
        exact h1
      · simp only [show (("MEDIUM" : String) = "MEDIUM") = True from by simp, true_iff]
        exact ⟨h2, not_lt.mp h1⟩
      · simp only [show (("MEDIUM" : String) = "LOW") = False from by simp, false_iff]
        exact not_le.mpr h2
    · rw [if_neg h2]
      refine ⟨?_, ?_, ?_⟩
      · simp only [show (("LOW" : String) = "HIGH") = False from by simp, false_iff]
        exact h1
      · simp only [show (("LOW" : String) = "MEDIUM") = False from by simp, false_iff]
        intro hc
        exact absurd hc.1 h2
      · simp only [show (("LOW" : String) = "LOW") = True from by simp, true_iff]
        exact not_lt.mp h2

/-- C9, counterexample to the claim as stated: with the configured
threshold 0.8, a transaction pair with similarity score exactly 0.8 emits a
pattern whose confidence is 0.8 but whose severity is MEDIUM, not HIGH: the
source computes severity with strict comparisons
(`HIGH if s > 0.8 else (MEDIUM if s > 0.6 else LOW)`). -/
theorem c9_counterexample :
    detect_double_spending_against_history (4 / 5) [] dtx_new [dtx_old] =
      [⟨"POTENTIAL_DOUBLE_SPENDING", 4 / 5, "MEDIUM", "tx1", "tx2"⟩] ∧
    ("MEDIUM" : String) ≠ "HIGH" := by
  refine ⟨?_, by decide⟩
  norm_num +decide [detect_double_spending_against_history,
    calculate_similarity_simple, severity_of, pair_key, dtx_new, dtx_old, abs]

/-- C9, amended: every pattern emitted by the transaction-intake detection
has type POTENTIAL_DOUBLE_SPENDING, confidence equal to the similarity
score of the emitting pair, score at least the threshold, and severity
determined by the score with strict thresholds: LOW when score ≤ 0.6,
MEDIUM when 0.6 < score ≤ 0.8, HIGH when score > 0.8 (so a score of
exactly 0.8 yields MEDIUM and exactly 0.6 yields LOW). -/
theorem c9_detector_severity (threshold : ℚ) (pairs : List (String × String))
    (new_tx : DTx) (hist : List DTx) :
    ∀ pat ∈ detect_double_spending_against_history threshold pairs new_tx hist,
      pat.pattern_type = "POTENTIAL_DOUBLE_SPENDING" ∧
      (∃ h ∈ hist, pat.tx2_id = h.txid ∧
        pat.confidence = calculate_similarity_simple new_tx h) ∧
      threshold ≤ pat.confidence ∧
      pat.severity = severity_of pat.confidence ∧
      (pat.severity = "HIGH" ↔ 4 / 5 < pat.confidence) ∧
      (pat.severity = "MEDIUM" ↔ 3 / 5 < pat.confidence ∧ pat.confidence ≤ 4 / 5) ∧
      (pat.severity = "LOW" ↔ pat.confidence ≤ 3 / 5) := by
  induction hist with
  | nil => intro pat hpat; cases hpat
  | cons h0 rest ih =>
    intro pat hpat
    rw [detect_double_spending_against_history] at hpat
    split at hpat
    · obtain ⟨h1, h2, h3, h4, h5, h6, h7⟩ := ih pat hpat
      exact ⟨h1, by obtain ⟨hh, hm, he⟩ := h2; exact ⟨hh, List.mem_cons_of_mem _ hm, he⟩,
        h3, h4, h5, h6, h7⟩
    · dsimp only at hpat
      split at hpat
      · rename_i hle
        rw [List.mem_singleton] at hpat
        subst hpat
        refine ⟨rfl, ⟨h0, List.mem_cons_self h0 rest, rfl, rfl⟩, hle, rfl, ?_, ?_, ?_⟩
        · exact (severity_of_spec (calculate_similarity_simple new_tx h0)).1
        · exact (severity_of_spec (calculate_similarity_simple new_tx h0)).2.1
        · exact (severity_of_spec (calculate_similarity_simple new_tx h0)).2.2
      · obtain ⟨h1, h2, h3, h4, h5, h6, h7⟩ := ih pat hpat
        exact ⟨h1, by obtain ⟨hh, hm, he⟩ := h2; exact ⟨hh, List.mem_cons_of_mem _ hm, he⟩,
          h3, h4, h5, h6, h7⟩

/-- Witness for `c9_detector_severity` on the concrete emitted pattern of
score exactly 0.8. -/
theorem c9_detector_severity_witness :
    (⟨"POTENTIAL_DOUBLE_SPENDING", 4 / 5, "MEDIUM", "tx1", "tx2"⟩ : DPattern) ∈
      detect_double_spending_against_history (4 / 5) [] dtx_new [dtx_old] ∧
    ((⟨"POTENTIAL_DOUBLE_SPENDING", 4 / 5, "MEDIUM", "tx1", "tx2"⟩ : DPattern).severity =
      "MEDIUM" ↔ 3 / 5 < (4 / 5 : ℚ) ∧ (4 / 5 : ℚ) ≤ 4 / 5) := by
  have hmem : (⟨"POTENTIAL_DOUBLE_SPENDING", 4 / 5, "MEDIUM", "tx1", "tx2"⟩ : DPattern) ∈
      detect_double_spending_against_history (4 / 5) [] dtx_new [dtx_old] := by
    have he : detect_double_spending_against_history (4 / 5) [] dtx_new [dtx_old] =
        [⟨"POTENTIAL_DOUBLE_SPENDING", 4 / 5, "MEDIUM", "tx1", "tx2"⟩] := by
      norm_num +decide [detect_double_spending_against_history,
        calculate_similarity_simple, severity_of, pair_key, dtx_new, dtx_old, abs]
    rw [he]
    exact List.mem_singleton.mpr rfl
  refine ⟨hmem, ?_⟩
  exact (c9_detector_severity (4 / 5) [] dtx_new [dtx_old] _ hmem).2.2.2.2.2.1

/-! ### Claim C10: corrupt snapshots abort startup -/

/-- C10: the code contradicts the claimed graceful degradation.  A missing
snapshot file indeed degrades to a fresh genesis-only chain, but a corrupt
snapshot — unparseable JSON or a chain whose blocks fail to re-apply —
raises out of `load_from_files` (only `FileNotFoundError` is caught) and
the exception propagates through `Node.__init__`, aborting startup. -/
theorem c10_corrupt_snapshot_aborts :
    node_startup_chain true LoadInput.corrupt demo_gs = Except.error () ∧
    node_startup_chain true (LoadInput.parsed [genesis_block, bad_amount_blk]) demo_gs =
      Except.error () ∧
    node_startup_chain true LoadInput.missing demo_gs =
      Except.ok (init_chain_state demo_gs) ∧
    node_startup_chain false LoadInput.corrupt demo_gs =
      Except.ok (init_chain_state demo_gs) := by
  refine ⟨rfl, ?_, rfl, rfl⟩
  norm_num +decide [node_startup_chain, load_from_files, replay_strict,
    apply_block_to_wallet, apply_txs, tx_check_ok, get_balance, get_stake,
    get_acct, set_state, init_chain_state, genesis_block, mk_block, compute_hash,
    demo_gs, bad_amount_blk, List.find?]

/-! ### Claim C8: validator election -/

theorem get_acct_mem (w : Wallet) (v : String) (h : ¬get_acct w v = ⟨0, 0⟩) :
    (v, get_acct w v) ∈ w := by
  rcases hf : w.find? (fun p => decide (p.1 = v)) with _ | p
  · exact absurd (by rw [get_acct, hf]; rfl) h
  · have hp0 := List.find?_some hf
    have hp : p.1 = v := by simpa using hp0
    have hm := List.mem_of_find?_eq_some hf
    have he : get_acct w v = p.2 := by
      rw [get_acct, hf]
      rfl
    rw [he]
    rw [show (v, p.2) = p from by rw [Prod.ext_iff]; exact ⟨hp.symm, rfl⟩]
    exact hm

theorem get_acct_of_mem_nodup (w : Wallet) (hnd : (w.map Prod.fst).Nodup)
    (v : String) (acc : Account) (hm : (v, acc) ∈ w) : get_acct w v = acc := by
  induction w with
  | nil => cases hm
  | cons p rest ih =>
    rcases p with ⟨b, acc2⟩
    rw [List.map_cons, List.nodup_cons] at hnd
    rcases List.mem_cons.mp hm with h0 | h0
    · injection h0 with h1 h2
      rw [get_acct_cons, if_pos h1.symm]
      exact h2.symm
    · by_cases hb : b = v
      · subst hb
        exact absurd (List.mem_map_of_mem Prod.fst h0) hnd.1
      · rw [get_acct_cons, if_neg hb]
        exact ih hnd.2 h0

theorem weighted_choice_mem (cands : List String) (ws : List ℚ) (u : ℚ)
    (h : cands ≠ []) :
    ∃ v, weighted_choice cands ws u = some v ∧ v ∈ cands := by
  rw [weighted_choice]
  have hlen : 0 < cands.length := List.length_pos.mpr h
  have hidx : min ((cum_weights ws).countP fun c =>
      decide (c ≤ u * (cum_weights ws).getLastD 0)) (cands.length - 1) <
      cands.length := lt_of_le_of_lt (min_le_right _ _) (by omega)
  rw [List.get?_eq_get hidx]
  exact ⟨_, rfl, List.get_mem _ _ _⟩

/-- C8 (confirmed): `select_validator` returns a known validator with
positive stake whenever one exists; otherwise a known validator with
positive balance whenever one exists; otherwise none.  The result is a
function of exactly the (ordered) account map, the head block's digest and
the known-validator collection, so two chain stores agreeing on wallet and
head digest elect the same validator. -/
theorem c8_select_validator (accounts : Wallet) (hh : HashV) (V : List String)
    (hnd : (accounts.map Prod.fst).Nodup) :
    ((∃ v ∈ V, 0 < get_stake accounts v) →
      ∃ v, select_validator accounts hh V = some v ∧ v ∈ V ∧
        0 < get_stake accounts v) ∧
    ((¬∃ v ∈ V, 0 < get_stake accounts v) → (∃ v ∈ V, 0 < get_balance accounts v) →
      ∃ v, select_validator accounts hh V = some v ∧ v ∈ V ∧
        0 < get_balance accounts v) ∧
    ((¬∃ v ∈ V, 0 < get_stake accounts v) →
      (¬∃ v ∈ V, 0 < get_balance accounts v) →
      select_validator accounts hh V = none) ∧
    (∀ s1 s2 : ChainState, s1.wallet = s2.wallet →
      (head_block s1).hash = (head_block s2).hash →
      select_validator_s s1 V = select_validator_s s2 V) := by
  have hp1iff : ∀ p, p ∈ accounts.filter (fun p =>
      decide (p.1 ∈ V) && decide (0 < p.2.stake)) ↔
      p ∈ accounts ∧ p.1 ∈ V ∧ 0 < p.2.stake := by
    intro p
    rw [List.mem_filter, Bool.and_eq_true, decide_eq_true_iff, decide_eq_true_iff]
  have hp2iff : ∀ p, p ∈ accounts.filter (fun p =>
      decide (p.1 ∈ V) && decide (0 < p.2.balance)) ↔
      p ∈ accounts ∧ p.1 ∈ V ∧ 0 < p.2.balance := by
    intro p
    rw [List.mem_filter, Bool.and_eq_true, decide_eq_true_iff, decide_eq_true_iff]
  have hstake_ne : ∀ {v}, 0 < get_stake accounts v → (v, get_acct accounts v) ∈ accounts := by
    intro v hv
    refine get_acct_mem accounts v ?_
    intro he
    rw [get_stake, he] at hv
    exact absurd hv (by norm_num)
  have hbal_ne : ∀ {v}, 0 < get_balance accounts v → (v, get_acct accounts v) ∈ accounts := by
    intro v hv
    refine get_acct_mem accounts v ?_
    intro he
    rw [get_balance, he] at hv
    exact absurd hv (by norm_num)
  have hpass1_ne : (∃ v ∈ V, 0 < get_stake accounts v) →
      accounts.filter (fun p => decide (p.1 ∈ V) && decide (0 < p.2.stake)) ≠ [] := by
    rintro ⟨v, hv, hst⟩
    refine List.ne_nil_of_mem ((hp1iff (v, get_acct accounts v)).mpr ?_)
    exact ⟨hstake_ne hst, hv, hst⟩
  have hpass1_e : (¬∃ v ∈ V, 0 < get_stake accounts v) →
      accounts.filter (fun p => decide (p.1 ∈ V) && decide (0 < p.2.stake)) = [] := by
    intro hno
    rcases he : accounts.filter (fun p => decide (p.1 ∈ V) && decide (0 < p.2.stake))
      with _ | ⟨p, rest⟩
    · exact he
    · exfalso
      have hp := (hp1iff p).mp (he ▸ List.mem_cons_self p rest)
      refine hno ⟨p.1, hp.2.1, ?_⟩
      rw [get_stake, get_acct_of_mem_nodup accounts hnd p.1 p.2 (by
        rcases p with ⟨a, acc⟩
        exact hp.1)]
      exact hp.2.2
  refine ⟨?_, ?_, ?_, ?_⟩
  · intro hex
    have hne := hpass1_ne hex
    rw [select_validator]
    rw [if_neg hne]
    have hmne : ((accounts.filter (fun p => decide (p.1 ∈ V) && decide (0 < p.2.stake))).map
        fun p => p.1) ≠ [] := by
      intro he
      exact hne (List.map_eq_nil_iff.mp he)
    have hwc := weighted_choice_mem _
      ((accounts.filter (fun p => decide (p.1 ∈ V) && decide (0 < p.2.stake))).map
        fun p => p.2.stake)
      (seeded_unit (hash_seed hh)) hmne
    obtain ⟨v, hv, hmemv⟩ := hwc
    refine ⟨v, hv, ?_⟩
    rw [List.mem_map] at hmemv
    obtain ⟨p, hp, hpe⟩ := hmemv
    have hp2 := (hp1iff p).mp hp
    subst hpe
    refine ⟨hp2.2.1, ?_⟩
    rw [get_stake, get_acct_of_mem_nodup accounts hnd p.1 p.2 (by
      rcases p with ⟨a, acc⟩
      exact hp2.1)]
    exact hp2.2.2
  · intro hno hex
    have he1 := hpass1_e hno
    obtain ⟨v0, hv0, hb0⟩ := hex
    have hne2 : accounts.filter (fun p => decide (p.1 ∈ V) && decide (0 < p.2.balance)) ≠ [] := by
      refine List.ne_nil_of_mem ((hp2iff (v0, get_acct accounts v0)).mpr ?_)
      exact ⟨hbal_ne hb0, hv0, hb0⟩
    rw [select_validator]
    rw [if_pos he1, if_neg hne2]
    have hmne2 : ((accounts.filter (fun p => decide (p.1 ∈ V) && decide (0 < p.2.balance))).map
        fun p => p.1) ≠ [] := by
      intro he
      exact hne2 (List.map_eq_nil_iff.mp he)
    have hwc2 := weighted_choice_mem _
      ((accounts.filter (fun p => decide (p.1 ∈ V) && decide (0 < p.2.balance))).map
        fun p => p.2.balance)
      (seeded_unit (hash_seed hh)) hmne2
    obtain ⟨v, hv, hmemv⟩ := hwc2
    refine ⟨v, hv, ?_⟩
    rw [List.mem_map] at hmemv
    obtain ⟨p, hp, hpe⟩ := hmemv
    have hp2 := (hp2iff p).mp hp
    subst hpe
    refine ⟨hp2.2.1, ?_⟩
    rw [get_balance, get_acct_of_mem_nodup accounts hnd p.1 p.2 (by
      rcases p with ⟨a, acc⟩
      exact hp2.1)]
    exact hp2.2.2
  · intro hno1 hno2
    have he1 := hpass1_e hno1
    have he2 : accounts.filter (fun p => decide (p.1 ∈ V) && decide (0 < p.2.balance)) = [] := by
      rcases he : accounts.filter (fun p => decide (p.1 ∈ V) && decide (0 < p.2.balance))
        with _ | ⟨p, rest⟩
      · exact he
      · exfalso
        have hp := (hp2iff p).mp (he ▸ List.mem_cons_self p rest)
        refine hno2 ⟨p.1, hp.2.1, ?_⟩
        rw [get_balance, get_acct_of_mem_nodup accounts hnd p.1 p.2 (by
          rcases p with ⟨a, acc⟩
          exact hp.1)]
        exact hp.2.2
    rw [select_validator, if_pos he1, if_pos he2]
  · intro s1 s2 hw hhd
    rw [select_validator_s, select_validator_s, hw, hhd]

/-- Witness for `c8_select_validator` on a concrete two-account wallet
where only A has positive stake. -/
theorem c8_select_validator_witness :
    (([("A", ⟨100, 50⟩), ("B", ⟨100, 0⟩)] : Wallet).map Prod.fst).Nodup ∧
    (∃ v ∈ ["A", "B"], 0 < get_stake [("A", ⟨100, 50⟩), ("B", ⟨100, 0⟩)] v) ∧
    (∃ v, select_validator [("A", ⟨100, 50⟩), ("B", ⟨100, 0⟩)] genesis_block.hash
        ["A", "B"] = some v ∧ v ∈ ["A", "B"] ∧
      0 < get_stake [("A", ⟨100, 50⟩), ("B", ⟨100, 0⟩)] v) := by
  have hnd : (([("A", ⟨100, 50⟩), ("B", ⟨100, 0⟩)] : Wallet).map Prod.fst).Nodup := by
    decide
  have hex : ∃ v ∈ ["A", "B"], 0 < get_stake [("A", ⟨100, 50⟩), ("B", ⟨100, 0⟩)] v :=
    ⟨"A", by decide, by decide⟩
  exact ⟨hnd, hex,
    (c8_select_validator [("A", ⟨100, 50⟩), ("B", ⟨100, 0⟩)] genesis_block.hash
      ["A", "B"] hnd).1 hex⟩

/-! ### Claim C4: chain well-formedness under the store operations -/

theorem compute_hash_ne_zeros (b : Block) : compute_hash b ≠ HashV.zeros64 := by
  simp [compute_hash]

theorem genesis_hash_honest : genesis_block.hash = compute_hash genesis_block := rfl

theorem hash_eq_fields {b1 b2 : Block} (h1 : b1.hash = compute_hash b1)
    (h2 : b2.hash = compute_hash b2) (h : b1.hash = b2.hash) :
    b1.index = b2.index ∧ b1.prev_hash = b2.prev_hash := by
  rw [h1, h2, compute_hash, compute_hash, HashV.sha256.injEq] at h
  exact ⟨h.1, h.2.1⟩

theorem assoc_find_nil {κ β : Type} [DecidableEq κ] (k : κ) :
    assoc_find ([] : List (κ × β)) k = none := rfl

theorem assoc_find_cons {κ β : Type} [DecidableEq κ] (p : κ × β) (m : List (κ × β)) (k : κ) :
    assoc_find (p :: m) k = if p.1 = k then some p.2 else assoc_find m k := by
  by_cases hp : p.1 = k
  · simp [assoc_find, List.find?_cons, hp]
  · simp [assoc_find, List.find?_cons, hp]

theorem assoc_find_insert {κ β : Type} [DecidableEq κ] (m : List (κ × β)) (k k' : κ) (v : β) :
    assoc_find (map_insert m k v) k' = if k' = k then some v else assoc_find m k' := by
  induction m with
  | nil =>
    rw [map_insert, if_neg (by simp), List.nil_append, assoc_find_cons]
    by_cases hk : k' = k
    · rw [if_pos hk, if_pos hk.symm]
    · rw [if_neg hk, if_neg (fun h => hk h.symm)]
  | cons p rest ih =>
    rw [map_insert] at ih ⊢
    by_cases hp : p.1 = k
    · rw [if_pos (show ((p :: rest).any fun q => decide (q.1 = k)) = true by
        simp [List.any_cons, hp])]
      rw [List.map_cons, if_pos hp, assoc_find_cons, assoc_find_cons]
      by_cases hk : k' = k
      · rw [if_pos hk, if_pos hk.symm]
      · rw [if_neg (fun h => hk h.symm), if_neg hk,
          if_neg (fun h => hk (hp.symm.trans h).symm)]
        by_cases hr : (rest.any fun q => decide (q.1 = k)) = true
        · rw [if_pos hr] at ih
          rw [ih, if_neg hk]
        · have h3 : rest.map (fun q => if q.1 = k then (k, v) else q) = rest.map id := by
            apply List.map_congr_left
            intro q hq
            have hq2 : ¬q.1 = k := by
              intro he
              rw [List.any_eq_true] at hr
              exact hr ⟨q, hq, by simp [he]⟩
            rw [if_neg hq2]
            rfl
          rw [h3, List.map_id]
    · have hany : ((p :: rest).any fun q => decide (q.1 = k)) =
          (rest.any fun q => decide (q.1 = k)) := by
        simp [List.any_cons, hp]
      by_cases hr : (rest.any fun q => decide (q.1 = k)) = true
      · rw [if_pos (by rw [hany]; exact hr)]
        rw [List.map_cons, if_neg hp, assoc_find_cons, assoc_find_cons]
        rw [if_pos hr] at ih
        by_cases hpk : p.1 = k'
        · rw [if_pos hpk, if_neg (fun h => hp (hpk.trans h)), if_pos hpk]
        · rw [if_neg hpk, ih, if_neg hpk]
      · rw [if_neg (by rw [hany]; exact hr)]
        rw [List.cons_append, assoc_find_cons, assoc_find_cons]
        rw [if_neg hr] at ih
        by_cases hpk : p.1 = k'
        · rw [if_pos hpk, if_neg (fun h => hp (hpk.trans h)), if_pos hpk]
        · rw [if_neg hpk, ih, if_neg hpk]

theorem linked_from_congr {p1 p2 : Block} (hh : p1.hash = p2.hash) (hi : p1.index = p2.index)
    {l : List Block} (h : linked_from p1 l) : linked_from p2 l := by
  cases l with
  | nil => trivial
  | cons b rest =>
    obtain ⟨h1, h2, h3, h4⟩ := h
    exact ⟨h1.trans hh, by rw [h2, hi], h3, h4⟩

theorem linked_from_append {l1 : List Block} : ∀ {p : Block} {l2 : List Block},
    linked_from p l1 → linked_from (l1.getLastD p) l2 → linked_from p (l1 ++ l2) := by
  induction l1 with
  | nil =>
    intro p l2 _ h2
    simpa using h2
  | cons b rest ih =>
    intro p l2 h1 h2
    obtain ⟨ha, hb, hc, hd⟩ := h1
    rw [List.getLastD_cons] at h2
    exact ⟨ha, hb, hc, ih hd h2⟩

theorem linked_from_take {l : List Block} : ∀ {p : Block} (n : Nat),
    linked_from p l → linked_from p (l.take n) := by
  induction l with
  | nil =>
    intro p n _
    rw [List.take_nil]
    trivial
  | cons b rest ih =>
    intro p n h
    cases n with
    | zero => trivial
    | succ n =>
      obtain ⟨ha, hb, hc, hd⟩ := h
      exact ⟨ha, hb, hc, ih n hd⟩

theorem linked_from_honest {l : List Block} : ∀ {p : Block}, linked_from p l →
    ∀ c ∈ l, c.hash = compute_hash c := by
  induction l with
  | nil =>
    intro p _ c hc
    cases hc
  | cons b rest ih =>
    intro p h c hc
    obtain ⟨_, _, hc3, hd⟩ := h
    rcases List.mem_cons.mp hc with h0 | h0
    · rw [h0]
      exact hc3
    · exact ih hd c h0

theorem linked_from_get_index {l : List Block} : ∀ {p : Block}, linked_from p l →
    ∀ i (h : i < l.length), (l.get ⟨i, h⟩).index = p.index + 1 + i := by
  induction l with
  | nil =>
    intro p _ i h
    simp at h
  | cons b rest ih =>
    intro p hp i h
    obtain ⟨_, hb, _, hd⟩ := hp
    cases i with
    | zero => simpa using hb
    | succ i =>
      have hlt : i < rest.length := by
        simp at h
        omega
      have h2 := ih hd i hlt
      show (rest.get ⟨i, hlt⟩).index = p.index + 1 + (i + 1)
      rw [h2, hb]
      omega

theorem linked_from_prev_link {l : List Block} : ∀ {p : Block}, linked_from p l →
    ∀ i (h1 : i + 1 < l.length) (h0 : i < l.length),
      (l.get ⟨i + 1, h1⟩).prev_hash = (l.get ⟨i, h0⟩).hash := by
  induction l with
  | nil =>
    intro p _ i h1 _
    simp at h1
  | cons b rest ih =>
    intro p hp i h1 h0
    obtain ⟨_, _, _, hd⟩ := hp
    cases i with
    | zero =>
      cases rest with
      | nil => simp at h1
      | cons c rest2 => exact hd.1
    | succ i =>
      have hx : i + 1 < rest.length := by
        simp at h1
        omega
      have hy : i < rest.length := by omega
      exact ih hd i hx hy

theorem getLastD_mem (l : List Block) (h : l ≠ []) : ∀ d : Block, l.getLastD d ∈ l := by
  induction l with
  | nil => exact (h rfl).elim
  | cons b rest ih =>
    intro d
    rw [List.getLastD_cons]
    by_cases hr : rest = []
    · rw [hr]
      simp
    · exact List.mem_cons_of_mem b (ih hr b)

theorem getLastD_snoc (xs : List Block) (a : Block) : ∀ d : Block, (xs ++ [a]).getLastD d = a := by
  induction xs with
  | nil =>
    intro d
    rfl
  | cons b rest ih =>
    intro d
    rw [List.cons_append, List.getLastD_cons]
    exact ih b

theorem getLastD_take {l : List Block} : ∀ (i : Nat) (h : i < l.length) (d : Block),
    (l.take (i + 1)).getLastD d = l.get ⟨i, h⟩ := by
  induction l with
  | nil =>
    intro i h d
    simp at h
  | cons b rest ih =>
    intro i h d
    cases i with
    | zero => rfl
    | succ i =>
      have hlt : i < rest.length := by
        simp at h
        omega
      rw [List.take_succ_cons, List.getLastD_cons]
      exact ih i hlt b


theorem chain_wf_head {l : List Block} (h : chain_wf l) :
    ∃ rest, l = genesis_block :: rest ∧ linked_from genesis_block rest := by
  cases l with
  | nil => exact h.elim
  | cons g rest =>
    obtain ⟨h1, h2⟩ := h
    subst h1
    exact ⟨rest, rfl, h2⟩

theorem chain_wf_honest {l : List Block} (h : chain_wf l) :
    ∀ c ∈ l, c.hash = compute_hash c := by
  obtain ⟨rest, rfl, hl⟩ := chain_wf_head h
  intro c hc
  rcases List.mem_cons.mp hc with h0 | h0
  · rw [h0]
    rfl
  · exact linked_from_honest hl c h0

theorem chain_wf_get_index {l : List Block} (h : chain_wf l) :
    ∀ i (hi : i < l.length), (l.get ⟨i, hi⟩).index = i := by
  obtain ⟨rest, rfl, hl⟩ := chain_wf_head h
  intro i hi
  cases i with
  | zero => rfl
  | succ i =>
    have hlt : i < rest.length := by
      simp at hi
      omega
    have h2 := linked_from_get_index hl i hlt
    show (rest.get ⟨i, hlt⟩).index = i + 1
    rw [h2]
    have hg : genesis_block.index = 0 := rfl
    omega

theorem chain_wf_links {l : List Block} (h : chain_wf l) :
    ∀ i (h1 : i + 1 < l.length) (h0 : i < l.length),
      (l.get ⟨i + 1, h1⟩).prev_hash = (l.get ⟨i, h0⟩).hash := by
  obtain ⟨rest, rfl, hl⟩ := chain_wf_head h
  intro i h1 h0
  cases i with
  | zero =>
    cases rest with
    | nil => simp at h1
    | cons c rest2 => exact hl.1
  | succ i =>
    have hx : i + 1 < rest.length := by
      simp at h1
      omega
    have hy : i < rest.length := by omega
    exact linked_from_prev_link hl i hx hy

theorem chain_wf_hash_nodup {l : List Block} (h : chain_wf l) :
    (l.map fun b => b.hash).Nodup := by
  rw [List.Nodup, List.pairwise_map, List.pairwise_iff_get]
  intro i j hij heq
  have hfe := hash_eq_fields (chain_wf_honest h _ (l.get_mem i i.isLt))
    (chain_wf_honest h _ (l.get_mem j j.isLt)) heq
  have hi := chain_wf_get_index h i i.isLt
  have hj := chain_wf_get_index h j j.isLt
  have hij2 : (i : Nat) < (j : Nat) := hij
  omega

theorem chain_wf_take_append {l : List Block} (h : chain_wf l) {i : Nat} (hi : i < l.length)
    {r : List Block} (hr : linked_from (l.get ⟨i, hi⟩) r) : chain_wf (l.take (i + 1) ++ r) := by
  obtain ⟨rest, hle, hl⟩ := chain_wf_head h
  subst hle
  have h2 := @getLastD_take (genesis_block :: rest) i hi genesis_block
  rw [List.take_succ_cons, List.getLastD_cons] at h2
  rw [List.take_succ_cons, List.cons_append]
  exact ⟨rfl, linked_from_append (linked_from_take i hl) (h2.symm ▸ hr)⟩

theorem prev_ne_self_hash {m : List (HashV × Block)} (hm : map_ok m) {b : Block}
    (hb : b.hash = compute_hash b) {p : Block} (hp : assoc_find m b.prev_hash = some p)
    (hpi : b.index = p.index + 1) : b.prev_hash ≠ b.hash := by
  intro he
  have hk := hm _ _ hp
  have hfe := hash_eq_fields hk.2.1 hb (by rw [← hk.1, he])
  omega

theorem map_ok_insert {m : List (HashV × Block)} (hm : map_ok m) {b : Block}
    (hb : b.hash = compute_hash b)
    (h0 : b.index = 0 → b.hash = genesis_block.hash)
    (hp : b.index ≠ 0 → ∃ p, assoc_find m b.prev_hash = some p ∧ b.index = p.index + 1) :
    map_ok (map_insert m b.hash b) := by
  intro k v hv
  rw [assoc_find_insert] at hv
  by_cases hk : k = b.hash
  · rw [if_pos hk] at hv
    injection hv with hv
    subst hv
    refine ⟨hk, hb, h0, ?_⟩
    intro hi
    obtain ⟨p, hp1, hp2⟩ := hp hi
    refine ⟨p, ?_, hp2⟩
    rw [assoc_find_insert, if_neg (prev_ne_self_hash hm hb hp1 hp2)]
    exact hp1
  · rw [if_neg hk] at hv
    obtain ⟨hkey, hhon, hzero, hpar⟩ := hm _ _ hv
    refine ⟨hkey, hhon, hzero, ?_⟩
    intro hi
    obtain ⟨p, hp1, hp2⟩ := hpar hi
    by_cases hpk : v.prev_hash = b.hash
    · have hkp := hm _ _ hp1
      have hfe := hash_eq_fields hkp.2.1 hb (by rw [← hkp.1, hpk])
      refine ⟨b, ?_, by omega⟩
      rw [assoc_find_insert, if_pos hpk]
    · refine ⟨p, ?_, hp2⟩
      rw [assoc_find_insert, if_neg hpk]
      exact hp1

theorem collect_branch_spec {m : List (HashV × Block)} {mainH : List HashV}
    (hm : map_ok m) (hg : genesis_block.hash ∈ mainH) :
    ∀ (fuel : Nat) (cur : Block), node_ok m cur → cur.index < fuel →
    ∃ branch ca, collect_branch m mainH fuel (some cur) = some (branch, some ca) ∧
      ca.hash ∈ mainH ∧ ca.hash = compute_hash ca ∧ linked_from ca branch.reverse ∧
      (branch.reverse.getLastD ca).hash = cur.hash ∧
      (branch.reverse.getLastD ca).index = cur.index := by
  intro fuel
  induction fuel with
  | zero =>
    intro cur _ h
    omega
  | succ fuel ih =>
    intro cur hcur hlt
    by_cases hmem : cur.hash ∈ mainH
    · refine ⟨[], cur, ?_, hmem, hcur.1, trivial, rfl, rfl⟩
      simp only [collect_branch]
      rw [if_pos hmem]
    · have hi0 : cur.index ≠ 0 := by
        intro h0
        exact hmem (hcur.2.1 h0 ▸ hg)
      obtain ⟨p, hp, hpi⟩ := hcur.2.2 hi0
      have hkp := hm _ _ hp
      have hplt : p.index < fuel := by omega
      obtain ⟨branch, ca, heq, hca1, hca2, hca3, hca4, hca5⟩ := ih p hkp.2 hplt
      refine ⟨cur :: branch, ca, ?_, hca1, hca2, ?_, ?_, ?_⟩
      · simp only [collect_branch]
        rw [if_neg hmem, hp, heq]
        rfl
      · rw [List.reverse_cons]
        refine linked_from_append hca3 ⟨?_, ?_, hcur.1, trivial⟩
        · rw [hca4]
          exact hkp.1
        · rw [hca5]
          exact hpi
      · rw [List.reverse_cons, getLastD_snoc]
      · rw [List.reverse_cons, getLastD_snoc]


theorem foldl_insert_fresh : ∀ (l : List Block) (acc : List (HashV × Block)),
    (l.map fun b => b.hash).Nodup →
    (∀ b ∈ l, (acc.any fun p => decide (p.1 = b.hash)) = false) →
    l.foldl (fun m b => map_insert m b.hash b) acc = acc ++ l.map fun b => (b.hash, b) := by
  intro l
  induction l with
  | nil =>
    intro acc _ _
    simp
  | cons b rest ih =>
    intro acc hnd hfr
    rw [List.foldl_cons]
    have hins : map_insert acc b.hash b = acc ++ [(b.hash, b)] := by
      rw [map_insert, if_neg (by rw [hfr b (List.mem_cons_self b rest)]; simp)]
    rw [List.map_cons, List.nodup_cons] at hnd
    rw [hins, ih (acc ++ [(b.hash, b)]) hnd.2 ?fresh]
    case fresh =>
      intro c hc
      rw [List.any_append, hfr c (List.mem_cons_of_mem b hc), Bool.false_or]
      have hne : ¬b.hash = c.hash := fun h =>
        hnd.1 (h ▸ List.mem_map_of_mem (fun q => q.hash) hc)
      simp [hne]
    rw [List.map_cons, List.append_assoc, List.singleton_append]

theorem rebuild_index_eq (l : List Block) (hnd : (l.map fun b => b.hash).Nodup) :
    rebuild_index l = l.map fun b => (b.hash, b) := by
  have h2 := foldl_insert_fresh l [] hnd (by intro c _; rfl)
  rw [rebuild_index, h2, List.nil_append]

theorem assoc_find_map_blocks (l : List Block) (k : HashV) (v : Block)
    (h : assoc_find (l.map fun b => (b.hash, b)) k = some v) : v ∈ l ∧ v.hash = k := by
  induction l with
  | nil =>
    rw [List.map_nil, assoc_find_nil] at h
    exact Option.noConfusion h
  | cons b rest ih =>
    rw [List.map_cons, assoc_find_cons] at h
    by_cases hb : b.hash = k
    · rw [if_pos hb] at h
      injection h with h
      subst h
      exact ⟨List.mem_cons_self b rest, hb⟩
    · rw [if_neg hb] at h
      obtain ⟨h1, h2⟩ := ih h
      exact ⟨List.mem_cons_of_mem b h1, h2⟩

theorem assoc_find_map_blocks_self (l : List Block) (hnd : (l.map fun b => b.hash).Nodup)
    (v : Block) (hv : v ∈ l) : assoc_find (l.map fun b => (b.hash, b)) v.hash = some v := by
  induction l with
  | nil => cases hv
  | cons b rest ih =>
    rw [List.map_cons, List.nodup_cons] at hnd
    rw [List.map_cons, assoc_find_cons]
    rcases List.mem_cons.mp hv with h0 | h0
    · subst h0
      rw [if_pos rfl]
    · have hne : ¬b.hash = v.hash := fun h =>
        hnd.1 (h ▸ List.mem_map_of_mem (fun q => q.hash) h0)
      rw [if_neg hne]
      exact ih hnd.2 h0

theorem chain_wf_rebuild (l : List Block) (h : chain_wf l) : map_ok (rebuild_index l) := by
  have hnd := chain_wf_hash_nodup h
  rw [rebuild_index_eq l hnd]
  intro k v hv
  obtain ⟨hmem, hkey⟩ := assoc_find_map_blocks l k v hv
  obtain ⟨⟨j, hj⟩, hget⟩ := List.mem_iff_get.mp hmem
  have hidx : v.index = j := by
    rw [← hget]
    exact chain_wf_get_index h j hj
  refine ⟨hkey.symm, chain_wf_honest h v hmem, ?_, ?_⟩
  · intro h0
    obtain ⟨rest, hle, _⟩ := chain_wf_head h
    have hj0 : j = 0 := by omega
    subst hj0
    subst hle
    rw [← hget]
    rfl
  · intro hi
    obtain ⟨j2, hj2⟩ : ∃ j2, j = j2 + 1 := ⟨j - 1, by omega⟩
    subst hj2
    have hjlt : j2 < l.length := by omega
    have hlink : v.prev_hash = (l.get ⟨j2, hjlt⟩).hash := by
      rw [← hget]
      exact chain_wf_links h j2 hj hjlt
    refine ⟨l.get ⟨j2, hjlt⟩, ?_, ?_⟩
    · rw [hlink]
      exact assoc_find_map_blocks_self l hnd _ (l.get_mem j2 hjlt)
    · have h2 := chain_wf_get_index h j2 hjlt
      omega

theorem validate_true_facts (s : ChainState) (b : Block) (h : validate_block s b = some true) :
    (b.index = 0 → ∃ c0, s.chain.head? = some c0 ∧ b.hash = c0.hash) ∧
    (b.index ≠ 0 → ∃ parent, assoc_find s.blocks_by_hash b.prev_hash = some parent ∧
      b.index = parent.index + 1 ∧ b.hash = compute_hash b) := by
  rw [validate_block] at h
  by_cases hi : b.index = 0
  · rw [if_pos hi] at h
    refine ⟨fun _ => ?_, fun hne => absurd hi hne⟩
    rcases hc : s.chain.head? with _ | c0
    · rw [hc] at h
      exact Option.noConfusion h
    · rw [hc] at h
      injection h with h
      exact ⟨c0, rfl, of_decide_eq_true h⟩
  · rw [if_neg hi] at h
    refine ⟨fun h0 => absurd h0 hi, fun _ => ?_⟩
    rcases hp : assoc_find s.blocks_by_hash b.prev_hash with _ | parent
    · rw [hp] at h
      simp at h
    · rw [hp] at h
      dsimp only at h
      by_cases h1 : b.index ≠ parent.index + 1
      · rw [if_pos h1] at h
        simp at h
      · rw [if_neg h1] at h
        by_cases h2 : compute_hash b ≠ b.hash
        · rw [if_pos h2] at h
          simp at h
        · rw [if_neg h2] at h
          exact ⟨parent, rfl, not_not.mp h1, (not_not.mp h2).symm⟩

theorem store_inv_init (gs : Wallet) : store_inv (init_chain_state gs) := by
  constructor
  · exact ⟨rfl, trivial⟩
  · intro k v hv
    have hv2 : assoc_find [(genesis_block.hash, genesis_block)] k = some v := hv
    rw [assoc_find_cons] at hv2
    by_cases hk : genesis_block.hash = k
    · rw [if_pos hk] at hv2
      injection hv2 with hv2
      subst hv2
      exact ⟨hk.symm, rfl, fun _ => rfl, fun hi => absurd rfl hi⟩
    · rw [if_neg hk, assoc_find_nil] at hv2
      exact Option.noConfusion hv2


theorem store_inv_reorganize_chain (s : ChainState) (b : Block)
    (hwf : chain_wf s.chain) (hmap : map_ok s.blocks_by_hash)
    (hnode : node_ok s.blocks_by_hash b) :
    store_inv (reorganize_chain s b).1 := by
  have hg : genesis_block.hash ∈ s.chain.map fun c => c.hash := by
    obtain ⟨rest, hle, _⟩ := chain_wf_head hwf
    rw [hle]
    exact List.mem_map_of_mem _ (List.mem_cons_self _ _)
  obtain ⟨branch, ca, heq, hcaM, hcaH, hlink, _, _⟩ :=
    collect_branch_spec hmap hg (b.index + s.blocks_by_hash.length + 2) b hnode (by omega)
  obtain ⟨c, hcmem, hchash⟩ := List.mem_map.mp hcaM
  obtain ⟨⟨j, hj⟩, hget⟩ := List.mem_iff_get.mp hcmem
  have hcidx : c.index = j := by
    rw [← hget]
    exact chain_wf_get_index hwf j hj
  have hfe := hash_eq_fields (chain_wf_honest hwf c hcmem) hcaH hchash
  have hcaj_lt : ca.index < s.chain.length := by omega
  have hq : s.chain.get ⟨ca.index, hcaj_lt⟩ = c := by
    have hcaj : ca.index = j := by omega
    simp only [hcaj]
    exact hget
  have hlink2 : linked_from (s.chain.get ⟨ca.index, hcaj_lt⟩) branch.reverse := by
    rw [hq]
    exact linked_from_congr hchash.symm (by omega) hlink
  have hncwf : chain_wf (s.chain.take (ca.index + 1) ++ branch.reverse) :=
    chain_wf_take_append hwf hcaj_lt hlink2
  simp only [reorganize_chain]
  rw [heq]
  dsimp only
  rcases hr : replay_strict (set_state s.genesis_state)
      (s.chain.take (ca.index + 1) ++ branch.reverse).tail with _ | w
  · have happ : apply_reorg s (s.chain.take (ca.index + 1) ++ branch.reverse) ca =
        (s, false) := by
      simp only [apply_reorg]
      rw [hr]
    rw [happ]
    exact ⟨hwf, hmap⟩
  · have happ : apply_reorg s (s.chain.take (ca.index + 1) ++ branch.reverse) ca =
        ({ s with
            chain := s.chain.take (ca.index + 1) ++ branch.reverse
            blocks_by_hash := rebuild_index (s.chain.take (ca.index + 1) ++ branch.reverse)
            wallet := w
            reorg_removed := some (s.chain.drop (ca.index + 1)) }, true) := by
      simp only [apply_reorg]
      rw [hr]
    rw [happ]
    exact ⟨hncwf, chain_wf_rebuild _ hncwf⟩

theorem store_inv_add (s : ChainState) (b : Block) (hb : b.hash = compute_hash b)
    (h : store_inv s) : store_inv (add_block s b).1 := by
  obtain ⟨hwf, hmap⟩ := h
  obtain ⟨rest, hchain, hlinked⟩ := chain_wf_head hwf
  rcases hv : validate_block s b with _ | bo
  · simp only [add_block]
    rw [hv]
    exact ⟨hwf, hmap⟩
  rcases bo with _ | _
  · simp only [add_block]
    rw [hv]
    exact ⟨hwf, hmap⟩
  · have hfacts := validate_true_facts s b hv
    have h0 : b.index = 0 → b.hash = genesis_block.hash := by
      intro hi
      obtain ⟨c0, hc0, hbc⟩ := hfacts.1 hi
      rw [hchain, List.head?_cons] at hc0
      injection hc0 with hc0
      rw [hbc, ← hc0]
    have hpar : b.index ≠ 0 → ∃ p, assoc_find s.blocks_by_hash b.prev_hash = some p ∧
        b.index = p.index + 1 := by
      intro hi
      obtain ⟨parent, hp1, hp2, _⟩ := hfacts.2 hi
      exact ⟨parent, hp1, hp2⟩
    have hmap1 : map_ok (map_insert s.blocks_by_hash b.hash b) := map_ok_insert hmap hb h0 hpar
    have hhead_mem : head_block s ∈ s.chain := by
      rw [head_block]
      exact getLastD_mem s.chain (by rw [hchain]; exact List.cons_ne_nil _ _) genesis_block
    have hhead_honest : (head_block s).hash = compute_hash (head_block s) :=
      chain_wf_honest hwf _ hhead_mem
    simp only [add_block]
    rw [hv]
    dsimp only
    by_cases hcond : b.prev_hash = (head_block s).hash
    · have hbi : b.index ≠ 0 := by
        intro hi
        have hg := h0 hi
        have hfe := hash_eq_fields hb genesis_hash_honest hg
        have hz : b.prev_hash = HashV.zeros64 := hfe.2
        exact compute_hash_ne_zeros (head_block s) (by rw [← hhead_honest, ← hcond]; exact hz)
      obtain ⟨parent, hp1, hp2⟩ := hpar hbi
      have hpkey := hmap _ _ hp1
      have hfe := hash_eq_fields hpkey.2.1 hhead_honest (by rw [← hpkey.1]; exact hcond)
      rw [if_pos (show b.prev_hash = (head_block { s with
          blocks_by_hash := map_insert s.blocks_by_hash b.hash b }).hash from hcond)]
      constructor
      · show chain_wf (s.chain ++ [b])
        rw [hchain, List.cons_append]
        have hh : rest.getLastD genesis_block = head_block s := by
          rw [head_block, hchain, List.getLastD_cons]
        refine ⟨rfl, linked_from_append hlinked ⟨?_, ?_, hb, trivial⟩⟩
        · rw [hh]
          exact hcond
        · rw [hh]
          omega
      · exact hmap1
    · rw [if_neg (show ¬b.prev_hash = (head_block { s with
          blocks_by_hash := map_insert s.blocks_by_hash b.hash b }).hash from hcond)]
      by_cases hgt : b.index > (head_block s).index
      · rw [if_pos (show b.index > (head_block { s with
            blocks_by_hash := map_insert s.blocks_by_hash b.hash b }).index from hgt)]
        refine store_inv_reorganize_chain _ b hwf hmap1 ⟨hb, h0, ?_⟩
        intro hi
        obtain ⟨p, hp1, hp2⟩ := hpar hi
        refine ⟨p, ?_, hp2⟩
        show assoc_find (map_insert s.blocks_by_hash b.hash b) b.prev_hash = some p
        rw [assoc_find_insert, if_neg (prev_ne_self_hash hmap hb hp1 hp2)]
        exact hp1
      · rw [if_neg (show ¬b.index > (head_block { s with
            blocks_by_hash := map_insert s.blocks_by_hash b.hash b }).index from hgt)]
        exact ⟨hwf, hmap1⟩

theorem store_inv_reorganize_to (s : ChainState) (nc : List Block) (hnc : chain_wf nc)
    (h : store_inv s) : store_inv (reorganize_to_chain s nc).1 := by
  obtain ⟨hwf, hmap⟩ := h
  by_cases he : nc = []
  · simp only [reorganize_to_chain]
    rw [if_pos he]
    exact ⟨hwf, hmap⟩
  · simp only [reorganize_to_chain]
    rw [if_neg he]
    rcases hca : find_common_ancestor s.chain nc with _ | ca
    · exact ⟨hwf, hmap⟩
    · dsimp only
      rcases hr : replay_strict (set_state s.genesis_state) nc.tail with _ | w
      · have happ : apply_reorg s nc ca = (s, false) := by
          simp only [apply_reorg]
          rw [hr]
        rw [happ]
        exact ⟨hwf, hmap⟩
      · have happ : apply_reorg s nc ca = ({ s with
            chain := nc
            blocks_by_hash := rebuild_index nc
            wallet := w
            reorg_removed := some (s.chain.drop (ca.index + 1)) }, true) := by
          simp only [apply_reorg]
          rw [hr]
        rw [happ]
        exact ⟨hnc, chain_wf_rebuild nc hnc⟩

theorem reachwf_store_inv {gs : Wallet} {s : ChainState} (h : ReachWF gs s) : store_inv s := by
  induction h with
  | init => exact store_inv_init gs
  | add s b hb _ ih => exact store_inv_add s b hb ih
  | reorg s nc hnc _ ih => exact store_inv_reorganize_to s nc hnc ih
  | read s a _ ih => exact ⟨ih.1, ih.2⟩


/-- C4 (corrected): as long as submitted blocks are hash-honest and chains
supplied to `reorganize_to_chain` are themselves well formed, every sequence
of store operations keeps the main chain well formed: `chain[0]` is the
fixed genesis block (index 0, all-zero previous digest, no transactions,
validator "genesis", timestamp 0, honest hash), and every later block links
to its predecessor by hash with index equal to its position.  Without the
restriction on supplied chains the claim is false (`reorganize_to_chain`
installs any ancestor-sharing chain without structural validation, see the
counterexample). -/
theorem c4_chain_shape (gs : Wallet) (s : ChainState) (h : ReachWF gs s) :
    s.chain.head? = some genesis_block ∧
    genesis_block.index = 0 ∧ genesis_block.prev_hash = HashV.zeros64 ∧
    genesis_block.transactions = [] ∧ genesis_block.validator = "genesis" ∧
    genesis_block.timestamp = 0 ∧ genesis_block.hash = compute_hash genesis_block ∧
    (∀ i (h1 : i + 1 < s.chain.length),
      (s.chain.get ⟨i + 1, h1⟩).prev_hash =
        (s.chain.get ⟨i, Nat.lt_of_succ_lt h1⟩).hash) ∧
    (∀ i (h1 : i < s.chain.length), (s.chain.get ⟨i, h1⟩).index = i) := by
  have hinv := reachwf_store_inv h
  obtain ⟨hwf, _⟩ := hinv
  obtain ⟨rest, hchain, _⟩ := chain_wf_head hwf
  refine ⟨?_, rfl, rfl, rfl, rfl, rfl, rfl, ?_, chain_wf_get_index hwf⟩
  · rw [hchain, List.head?_cons]
  · intro i h1
    exact chain_wf_links hwf i h1 (Nat.lt_of_succ_lt h1)

/-- C4 counterexample: from the freshly initialised store,
`reorganize_to_chain` succeeds on the caller-supplied chain
`[genesis, c4_bad]`, which shares the genesis ancestor with the current
chain, and installs it as the main chain — yet `c4_bad` sits at position 1
with index 5 and a previous digest that does not match the genesis hash,
so both claimed chain-continuity properties fail. -/
theorem c4_counterexample :
    (reorganize_to_chain (init_chain_state demo_gs) [genesis_block, c4_bad]).2 =
      ReorgResult.done ∧
    find_common_ancestor (init_chain_state demo_gs).chain [genesis_block, c4_bad] =
      some genesis_block ∧
    (reorganize_to_chain (init_chain_state demo_gs) [genesis_block, c4_bad]).1.chain =
      [genesis_block, c4_bad] ∧
    c4_bad.index = 5 ∧ c4_bad.prev_hash ≠ genesis_block.hash := by
  refine ⟨?_, ?_, ?_, rfl, ?_⟩ <;> decide

/-- Witness for `c4_chain_shape`: one honest height-1 block appended to the
fresh store through `add_block`; the resulting two-block chain satisfies
every conjunct of the shape property. -/
theorem c4_chain_shape_witness :
    (add_block (init_chain_state demo_gs) main1).1.chain = [genesis_block, main1] ∧
    ((add_block (init_chain_state demo_gs) main1).1.chain.head? = some genesis_block ∧
      genesis_block.index = 0 ∧ genesis_block.prev_hash = HashV.zeros64 ∧
      genesis_block.transactions = [] ∧ genesis_block.validator = "genesis" ∧
      genesis_block.timestamp = 0 ∧ genesis_block.hash = compute_hash genesis_block ∧
      (∀ i (h1 : i + 1 < (add_block (init_chain_state demo_gs) main1).1.chain.length),
        ((add_block (init_chain_state demo_gs) main1).1.chain.get ⟨i + 1, h1⟩).prev_hash =
          ((add_block (init_chain_state demo_gs) main1).1.chain.get
            ⟨i, Nat.lt_of_succ_lt h1⟩).hash) ∧
      (∀ i (h1 : i < (add_block (init_chain_state demo_gs) main1).1.chain.length),
        ((add_block (init_chain_state demo_gs) main1).1.chain.get ⟨i, h1⟩).index = i)) :=
  ⟨by decide, c4_chain_shape demo_gs _ (ReachWF.add _ main1 rfl ReachWF.init)⟩


end PosMas
